import Mathlib

/-! Verification of yamf: the VarU64 codec and the type-length-value framing.

A shallow embedding of the Go packages `yamf/varu64` (file `varu64/varu64.go`)
and `yamf` (file `type_value.go`), together with theorems about them.

Conventions of the embedding:

* a Go `byte` is a `Fin 256`; the conversion `byte(x)` is `byte x` (reduction
  modulo 256) and `uint64(b)` is `b.val`;
* a Go `uint64` is a `Nat`; theorems about arbitrary values carry the
  hypothesis `v < 2 ^ 64`;
* a Go `int` is 64 bits wide (`MaxInt = 2 ^ 63 - 1`);
* an `io.Reader` is an in-memory buffer (`bytes.Buffer`), represented by the
  list of its unread bytes; every reading function returns the unread rest as
  the last component of its result;
* an `io.Writer` is an in-memory buffer (`bytes.Buffer`), represented by the
  list of the bytes written so far; its `Write` never fails;
* a Go `error` is an `Option Error`, `none` being `nil`;
* a nil slice and an empty slice are both the empty list (`bytes.Equal` does not
  distinguish them);
* the allocation `make([]byte, length)` returns only for lengths the runtime can
  serve; the functions `TypeValue.readValue` and `TypeValue.ReadFrom` give the
  result of a call that returns, and `TypeValue.readValueReturns` and
  `TypeValue.ReadFromReturns` tell whether the call returns, for a given
  largest length `maxAlloc` that `make` serves.
-/

namespace yamf

/-- A byte, Go's `byte` (`uint8`). -/
abbrev Byte := Fin 256

/-- The Go conversion `byte(x)` of an unsigned integer: the low eight bits. -/
def byte (x : Nat) : Byte := ⟨x % 256, Nat.mod_lt x (by decide)⟩

/-- The error values that occur: `io.EOF`, `io.ErrUnexpectedEOF`,
`varu64.ErrNonCanonical`, `yamf.ErrValueTooBig`, `yamf.ErrHashNotFound`, and
the errors `hex.InvalidByteError(b)` and `hex.ErrLength` of `encoding/hex`. -/
inductive Error where
  | EOF
  | ErrUnexpectedEOF
  | ErrNonCanonical
  | ErrValueTooBig
  | ErrHashNotFound
  | InvalidByteError (b : Fin 256)
  | ErrLength
  deriving DecidableEq

/-- The largest Go `int` on a 64-bit target, `math.MaxInt`. -/
def MaxInt : Nat := 2 ^ 63 - 1

/-- The method `Read` of `bytes.Buffer`, called with a destination slice of length
`n` on a buffer whose unread bytes are `r`: an empty buffer gives `io.EOF`
(or nothing at all when `n = 0`), otherwise as many bytes as fit are copied.
Result: the bytes copied, the error, the unread rest. -/
def bufferRead (r : List Byte) (n : Nat) : List Byte × Option Error × List Byte :=
  if r.isEmpty then
    if n = 0 then ([], none, r) else ([], some Error.EOF, r)
  else (r.take n, none, r.drop n)

/-- The function `io.ReadFull` on an in-memory buffer with unread bytes `r`, for a
destination slice of length `m`: it reads until `m` bytes are there; it fails
with `io.EOF` when no byte could be read and with `io.ErrUnexpectedEOF` when
some but not all could. Result: the bytes read, the error, the unread rest. -/
def ioReadFull (r : List Byte) (m : Nat) : List Byte × Option Error × List Byte :=
  if m = 0 then ([], none, r)
  else if r.isEmpty then ([], some Error.EOF, r)
  else if r.length < m then (r, some Error.ErrUnexpectedEOF, [])
  else (r.take m, none, r.drop m)

/-- The method `Write` of `bytes.Buffer`: the bytes are appended, all of them are
written and there is no error. Result: the buffer, the count, the error. -/
def bufferWrite (w : List Byte) (p : List Byte) : List Byte × Nat × Option Error :=
  (w ++ p, p.length, none)

/-- The function `binary.BigEndian.PutUint64`: the eight bytes of `v`, most
significant first. -/
def PutUint64 (v : Nat) : List Byte :=
  [byte (v >>> 56), byte (v >>> 48), byte (v >>> 40), byte (v >>> 32),
   byte (v >>> 24), byte (v >>> 16), byte (v >>> 8), byte v]

/-- The function `binary.BigEndian.Uint64` on a slice of (at least) eight bytes. -/
def BigEndianUint64 (b : List Byte) : Nat :=
  (b.getD 7 0).val ||| (b.getD 6 0).val <<< 8 ||| (b.getD 5 0).val <<< 16 |||
    (b.getD 4 0).val <<< 24 ||| (b.getD 3 0).val <<< 32 ||| (b.getD 2 0).val <<< 40 |||
    (b.getD 1 0).val <<< 48 ||| (b.getD 0 0).val <<< 56

/-- The table `reverseHexTable` of `encoding/hex`: the value of a hexadecimal
digit (`0-9`, `a-f`, `A-F`), `none` for any other byte. -/
def fromHexChar (c : Byte) : Option Nat :=
  if 48 ≤ c.val ∧ c.val ≤ 57 then some (c.val - 48)
  else if 97 ≤ c.val ∧ c.val ≤ 102 then some (c.val - 97 + 10)
  else if 65 ≤ c.val ∧ c.val ≤ 70 then some (c.val - 65 + 10)
  else none

/-- The function `hex.Decode` into a large enough destination: the bytes decoded
before the first bad digit, and the error. -/
def hexDecode : List Byte → List Byte × Option Error
  | p :: q :: rest =>
    match fromHexChar p, fromHexChar q with
    | none, _ => ([], some (Error.InvalidByteError p))
    | some _, none => ([], some (Error.InvalidByteError q))
    | some a, some b =>
      match hexDecode rest with
      | (out, err) => (byte (a <<< 4 ||| b) :: out, err)
  | [p] =>
    if fromHexChar p = none then ([], some (Error.InvalidByteError p))
    else ([], some Error.ErrLength)
  | [] => ([], none)

/-- The struct `decoder` of `encoding/hex` over an in-memory buffer: the unread
text `r` of the buffer, the stored error `err` and the input buffer `in`
(here `inBuf`), whose backing array has `bufferSize` bytes. -/
structure hexDecoder where
  r : List Byte
  err : Option Error
  inBuf : List Byte
  deriving DecidableEq

/-- The constant `bufferSize` of `encoding/hex`. -/
def bufferSize : Nat := 1024

/-- The function `hex.NewDecoder` applied to `bytes.NewBuffer(text)`. -/
def NewDecoder (text : List Byte) : hexDecoder := { r := text, err := none, inBuf := [] }

/-- The first part of the method `Read` of the hex `decoder`: when the input buffer
holds less than two digits and no error is stored, it is refilled from the
underlying buffer; a lone last digit at the end of the text turns `io.EOF`
into `InvalidByteError` or `io.ErrUnexpectedEOF`. -/
def hexDecoder.fill (d : hexDecoder) : hexDecoder :=
  if d.inBuf.length < 2 ∧ d.err = none then
    match bufferRead d.r (bufferSize - d.inBuf.length) with
    | (data, err, r) =>
      let inBuf := d.inBuf ++ data
      let err :=
        if err = some Error.EOF ∧ inBuf.length % 2 ≠ 0 then
          match inBuf.getLast? with
          | some c =>
            if fromHexChar c = none then some (Error.InvalidByteError c)
            else some Error.ErrUnexpectedEOF
          | none => err
        else err
      { r := r, err := err, inBuf := inBuf }
  else d

/-- The second part of the method `Read` of the hex `decoder`, for a destination
slice of length `m`: at most `m` bytes are decoded from the input buffer, and
the stored error is handed out only once the input buffer is used up.
Result: bytes decoded, error, decoder. -/
def hexDecoder.decode (d : hexDecoder) (m : Nat) : List Byte × Option Error × hexDecoder :=
  let numAvail := d.inBuf.length / 2
  let m := if m > numAvail then numAvail else m
  match hexDecode (d.inBuf.take (m * 2)) with
  | (out, err) =>
    let d : hexDecoder := { d with inBuf := d.inBuf.drop (2 * out.length) }
    let d : hexDecoder :=
      match err with
      | some e => { d with inBuf := [], err := some e }
      | none => d
    if d.inBuf.length < 2 then (out, d.err, d) else (out, none, d)

/-- The method `Read` of the hex `decoder`, for a destination slice of length `m`.
Result: bytes decoded, error, decoder. -/
def hexDecoder.Read (d : hexDecoder) (m : Nat) : List Byte × Option Error × hexDecoder :=
  d.fill.decode m

/-- The loop `for n < min && err == nil` of `io.ReadAtLeast` on a hex `decoder`,
for a destination of length `size`, run for at most the given number of
rounds; `none` when the loop has not ended by then. -/
def hexReadAtLeastLoop (size min : Nat) :
    Nat → hexDecoder → List Byte → Option Error →
      Option (List Byte × Option Error × hexDecoder)
  | 0, _, _, _ => none
  | fuel + 1, d, acc, err =>
    if acc.length < min ∧ err = none then
      match d.Read (size - acc.length) with
      | (p, err, d) => hexReadAtLeastLoop size min fuel d (acc ++ p) err
    else some (acc, err, d)

/-- The function `io.ReadFull` on a hex `decoder`, for a destination slice of length
`m`. A round of the loop yields a byte, or an error, or (once, when a single
digit is left in the buffer) neither, so the loop is given `m + 3` rounds;
`none` when it has not ended by then. Result: bytes read, error, decoder. -/
def hexReadFull (d : hexDecoder) (m : Nat) : Option (List Byte × Option Error × hexDecoder) :=
  match hexReadAtLeastLoop m m (m + 3) d [] none with
  | none => none
  | some (acc, err, d) =>
    if acc.length ≥ m then some (acc, none, d)
    else if acc.length > 0 ∧ err = some Error.EOF then some (acc, some Error.ErrUnexpectedEOF, d)
    else some (acc, err, d)

end yamf

namespace varu64

open yamf

/-- The struct `Uint64`: a wrapped `uint64`. -/
structure Uint64 where
  uint64 : Nat
  deriving DecidableEq

/-- The method `Value`. -/
def Uint64.Value (v : Uint64) : Nat := v.uint64

/-- The method `SetValue`. -/
def Uint64.SetValue (_v : Uint64) (value : Nat) : Uint64 := { uint64 := value }

/-- The function `encodingParams`: header byte and number of trailing bytes. -/
def encodingParams (v : Nat) : Byte × Nat :=
  if v < 248 then (byte v, 0)
  else if v < 256 then (248, 1)
  else if v < 65536 then (249, 2)
  else if v < 16777216 then (250, 3)
  else if v < 4294967296 then (251, 4)
  else if v < 1099511627776 then (252, 5)
  else if v < 281474976710656 then (253, 6)
  else if v < 72057594037927936 then (254, 7)
  else (255, 8)

/-- The function `WriteUint64`: the nine byte scratch buffer is filled from the
right, the header is put in front of the trailing bytes, and the tail of the
buffer starting at the header is written. Result: writer, count, error. -/
def WriteUint64 (w : List Byte) (value : Nat) : List Byte × Nat × Option Error :=
  let header := (encodingParams value).1
  let length := (encodingParams value).2
  let buf : List Byte := List.replicate 9 0
  let buf := if length > 0 then buf.take 1 ++ PutUint64 value else buf
  let i := (buf.length - length) - 1
  let buf := buf.set i header
  bufferWrite w (buf.drop i)

/-- The function `eofToUnexpectedEOF`. -/
def eofToUnexpectedEOF (err : Error) : Error :=
  if err = Error.EOF then Error.ErrUnexpectedEOF else err

/-- The function `ReadUint64`. Result: value, count, error, unread rest. -/
def ReadUint64 (r : List Byte) : Nat × Nat × Option Error × List Byte :=
  let buf : List Byte := List.replicate 9 0
  match bufferRead r 1 with
  | (p, some err, r) => (0, p.length, some (eofToUnexpectedEOF err), r)
  | (p, none, r) =>
    let buf := p ++ buf.drop p.length
    let b0 := buf.getD 0 0
    if b0.val ||| 7 ≠ 255 then (b0.val, 1, none, r)
    else
      let length := (b0.val &&& 7) + 1
      match ioReadFull r length with
      | (q, some err, r) => (0, q.length, some (eofToUnexpectedEOF err), r)
      | (q, none, r) =>
        let buf := buf.take (buf.length - length) ++ q
        let v := BigEndianUint64 (buf.drop 1)
        if length ≠ (encodingParams v).2 then (v, length + 1, some Error.ErrNonCanonical, r)
        else (v, length + 1, none, r)

/-- The method `Uint64.ReadFrom`: the receiver is updated when the error is nil
or `ErrNonCanonical`. Result: receiver, count, error, unread rest. -/
def Uint64.ReadFrom (v : Uint64) (r : List Byte) : Uint64 × Nat × Option Error × List Byte :=
  match ReadUint64 r with
  | (val, n, err, r) =>
    let v := if err = none ∨ err = some Error.ErrNonCanonical then { v with uint64 := val } else v
    (v, n, err, r)

/-- The method `Uint64.WriteTo`. Result: writer, count, error. -/
def Uint64.WriteTo (v : Uint64) (w : List Byte) : List Byte × Nat × Option Error :=
  WriteUint64 w v.uint64

/-- The method `Uint64.MarshalBinary`: the bytes written to a fresh buffer. -/
def Uint64.MarshalBinary (v : Uint64) : List Byte × Option Error :=
  match v.WriteTo [] with
  | (_, _, some err) => ([], some err)
  | (b, _, none) => (b, none)

/-- The method `Uint64.UnmarshalBinary`. Result: receiver, error. -/
def Uint64.UnmarshalBinary (v : Uint64) (data : List Byte) : Uint64 × Option Error :=
  match v.ReadFrom data with
  | (v, _, err, _) => (v, err)

/-- The function `ReadUint64` when the reader is a hex `decoder`: the same
statements as in `ReadUint64`, with the reads done by the decoder; `none`
when `io.ReadFull` has not ended within its bound.
Result: value, count, error, decoder. -/
def ReadUint64Hex (r : hexDecoder) : Option (Nat × Nat × Option Error × hexDecoder) :=
  let buf : List Byte := List.replicate 9 0
  match r.Read 1 with
  | (p, some err, r) => some (0, p.length, some (eofToUnexpectedEOF err), r)
  | (p, none, r) =>
    let buf := p ++ buf.drop p.length
    let b0 := buf.getD 0 0
    if b0.val ||| 7 ≠ 255 then some (b0.val, 1, none, r)
    else
      let length := (b0.val &&& 7) + 1
      match hexReadFull r length with
      | none => none
      | some (q, some err, r) => some (0, q.length, some (eofToUnexpectedEOF err), r)
      | some (q, none, r) =>
        let buf := buf.take (buf.length - length) ++ q
        let v := BigEndianUint64 (buf.drop 1)
        if length ≠ (encodingParams v).2 then
          some (v, length + 1, some Error.ErrNonCanonical, r)
        else some (v, length + 1, none, r)

/-- The method `Uint64.UnmarshalText`: the receiver is updated only when the error is
nil; `none` when the read has not ended within its bound.
Result: receiver, error. -/
def Uint64.UnmarshalText (v : Uint64) (text : List Byte) : Option (Uint64 × Option Error) :=
  match ReadUint64Hex (NewDecoder text) with
  | none => none
  | some (_, _, some err, _) => some (v, some err)
  | some (val, _, none, _) => some ({ v with uint64 := val }, none)

/-- The function `U64`. -/
def U64 (value : Nat) : Uint64 := { uint64 := value }

end varu64

namespace yamf

open varu64

/-- The struct `TypeValue` (the field `Type` is called `Typ` here, `Type` being
reserved). -/
structure TypeValue where
  Typ : Nat
  Value : List Byte
  deriving DecidableEq

/-- The method `TypeValue.Equal`. -/
def TypeValue.Equal (t other : TypeValue) : Bool :=
  t.Typ == other.Typ && t.Value == other.Value

/-- The method `TypeValue.writeValue`. Result: writer, count, error. -/
def TypeValue.writeValue (t : TypeValue) (w : List Byte) : List Byte × Nat × Option Error :=
  if t.Value.length > 0 then
    match bufferWrite w t.Value with
    | (w, count, err) => (w, 0 + count, err)
  else (w, 0, none)

/-- The method `TypeValue.WriteTo`. Result: writer, count, error. -/
def TypeValue.WriteTo (t : TypeValue) (w : List Byte) : List Byte × Nat × Option Error :=
  let val : Uint64 := { uint64 := 0 }
  let val := val.SetValue t.Typ
  match val.WriteTo w with
  | (w, count, some err) => (w, 0 + count, some err)
  | (w, count, none) =>
    let n := 0 + count
    let val := val.SetValue (t.Value.length % 2 ^ 64)
    match val.WriteTo w with
    | (w, count, some err) => (w, n + count, some err)
    | (w, count, none) =>
      let n := n + count
      match t.writeValue w with
      | (w, count, err) => (w, n + count, err)

/-- The function `readFull`: `io.ReadFull`, with `io.EOF` after no byte at all
turned into `io.ErrUnexpectedEOF`. Result: bytes read, error, unread rest. -/
def readFull (r : List Byte) (m : Nat) : List Byte × Option Error × List Byte :=
  match ioReadFull r m with
  | (p, err, r) =>
    if p.length = 0 ∧ err = some Error.EOF then (p, some Error.ErrUnexpectedEOF, r)
    else (p, err, r)

/-- The method `TypeValue.readValue`, the package variable `MaxValueSize` being a
parameter. The value is allocated with `length` zero bytes and the bytes read
overwrite its beginning. This is the result of a call that returns: when
`make([]byte, length)` panics or runs out of memory the call does not return,
which is what `TypeValue.readValueReturns` tells.
Result: receiver, count, error, unread rest. -/
def TypeValue.readValue (MaxValueSize : Int) (t : TypeValue) (r : List Byte) (length : Nat) :
    TypeValue × Nat × Option Error × List Byte :=
  if length > 0 then
    if MaxValueSize > 0 ∧ (length : Int) > MaxValueSize then (t, 0, some Error.ErrValueTooBig, r)
    else
      let t := { t with Value := List.replicate length 0 }
      match readFull r length with
      | (p, err, r) => ({ t with Value := p ++ t.Value.drop p.length }, p.length, err, r)
  else (t, 0, none, r)

/-- Whether a call of `TypeValue.readValue` returns, `maxAlloc` being the largest
length for which `make([]byte, length)` returns (above it the runtime panics
with `makeslice: len out of range` or stops for lack of memory): the
allocation is reached for a positive length that passes the size check. -/
def TypeValue.readValueReturns (maxAlloc : Nat) (MaxValueSize : Int) (length : Nat) : Bool :=
  if length > 0 then
    if MaxValueSize > 0 ∧ (length : Int) > MaxValueSize then true
    else decide (length ≤ maxAlloc)
  else true

/-- The closing loop of `TypeValue.ReadFrom`, `for i := 2; i >= 0; i--`, started
with `i + 1` iterations left: the first non-nil entry met going down from
`errs[i]` is the result, and the last entry read otherwise. -/
def scanErrs (errs : List (Option Error)) : Nat → Option Error → Option Error
  | 0, err => err
  | i + 1, _ =>
    match errs.getD i none with
    | some e => some e
    | none => scanErrs errs i none

/-- The method `TypeValue.ReadFrom`, the package variable `MaxValueSize` being a
parameter. This is the result of a call that returns, see
`TypeValue.ReadFromReturns`. Result: receiver, count, error, unread rest. -/
def TypeValue.ReadFrom (MaxValueSize : Int) (t : TypeValue) (r : List Byte) :
    TypeValue × Nat × Option Error × List Byte :=
  let val : Uint64 := { uint64 := 0 }
  match val.ReadFrom r with
  | (val, count, err, r) =>
    let n := 0 + count
    if err ≠ none ∧ err ≠ some Error.ErrNonCanonical then (t, n, err, r)
    else
      let errs0 := err
      let t := { t with Typ := val.Value }
      match val.ReadFrom r with
      | (val, count, err, r) =>
        let n := n + count
        if err ≠ none ∧ err ≠ some Error.ErrNonCanonical then (t, n, err, r)
        else
          let errs1 := err
          if val.Value > MaxInt then (t, n, some Error.ErrValueTooBig, r)
          else
            match t.readValue MaxValueSize r val.Value with
            | (t, count, err, r) =>
              let n := n + count
              let errs2 := err
              (t, n, scanErrs [errs0, errs1, errs2] 3 err, r)

/-- Whether a call of `TypeValue.ReadFrom` returns, `maxAlloc` being the largest
length for which `make([]byte, length)` returns: the statements of
`TypeValue.ReadFrom` are followed up to the call of `readValue`, the only
place where the method allocates. -/
def TypeValue.ReadFromReturns (maxAlloc : Nat) (MaxValueSize : Int) (r : List Byte) : Bool :=
  let val : Uint64 := { uint64 := 0 }
  match val.ReadFrom r with
  | (val, _, err, r) =>
    if err ≠ none ∧ err ≠ some Error.ErrNonCanonical then true
    else
      match val.ReadFrom r with
      | (val, _, err, _) =>
        if err ≠ none ∧ err ≠ some Error.ErrNonCanonical then true
        else
          if val.Value > MaxInt then true
          else TypeValue.readValueReturns maxAlloc MaxValueSize val.Value

/-- The method `TypeValue.MarshalBinary`: the bytes written to a fresh buffer. -/
def TypeValue.MarshalBinary (s : TypeValue) : List Byte × Option Error :=
  match s.WriteTo [] with
  | (_, _, some err) => ([], some err)
  | (b, _, none) => (b, none)

/-- The method `TypeValue.UnmarshalBinary`. Result: receiver, error. -/
def TypeValue.UnmarshalBinary (MaxValueSize : Int) (s : TypeValue) (data : List Byte) :
    TypeValue × Option Error :=
  match s.ReadFrom MaxValueSize data with
  | (s, _, err, _) => (s, err)

/-- The interface `Hash` as far as the package uses it: the identifier reported by
`HashType`, and the method `Sum` of `hash.Hash`, which appends the current
digest to its argument and leaves the state of the hash as it is. -/
structure Hash where
  HashType : Nat
  Sum : List Byte → List Byte

/-- A constructor `func() (Hash, error)`; a nil `Hash` is `none`. -/
abbrev HashCtor := Unit → Option Hash × Option Error

/-- The struct `hashRegistry` without its mutex: the map `hashes`, the nil map being
`none`. -/
structure hashRegistry where
  hashes : Option (Nat → Option HashCtor)

/-- The method `hashRegistry.registerHash`. -/
def hashRegistry.registerHash (h : hashRegistry) (id : Nat) (f : HashCtor) : hashRegistry :=
  let hashes : Nat → Option HashCtor :=
    match h.hashes with
    | none => fun _ => none
    | some m => m
  { hashes := some (fun k => if k = id then some f else hashes k) }

/-- The method `hashRegistry.createHash`. -/
def hashRegistry.createHash (h : hashRegistry) (id : Nat) : Option Hash × Option Error :=
  let f : Option HashCtor :=
    match h.hashes with
    | none => none
    | some m => m id
  match f with
  | none => (none, some Error.ErrHashNotFound)
  | some f => f ()

/-- The method `hashRegistry.typeValueToHash`. -/
def hashRegistry.typeValueToHash (h : hashRegistry) (val : TypeValue) :
    Option Hash × Option Error :=
  h.createHash val.Typ

/-- The package variable `registry` at program start: the zero `hashRegistry`. -/
def registry : hashRegistry := { hashes := none }

/-- The function `RegisterHash`, the package variable `registry` being passed in and
handed back. -/
def RegisterHash (registry : hashRegistry) (id : Nat) (f : HashCtor) : hashRegistry :=
  registry.registerHash id f

/-- The function `HashToTypeValue`. -/
def HashToTypeValue (hash : Hash) : TypeValue :=
  { Typ := hash.HashType, Value := hash.Sum [] }

/-- The function `TypeValueToHash`, the package variable `registry` being passed in. -/
def TypeValueToHash (registry : hashRegistry) (val : TypeValue) : Option Hash × Option Error :=
  registry.typeValueToHash val

/-- The function `CreateHash`, the package variable `registry` being passed in. -/
def CreateHash (registry : hashRegistry) (id : Nat) : Option Hash × Option Error :=
  registry.createHash id

/-- The function `HashEqual`. -/
def HashEqual (a : Hash) (b : TypeValue) : Bool :=
  if a.HashType ≠ b.Typ then false
  else a.Sum [] == b.Value

end yamf

/-! ## Specification-side vocabulary -/

namespace yamf

/-- The big-endian value of a byte sequence of any length. -/
def beValue (bs : List Byte) : Nat := bs.foldl (fun acc b => acc * 256 + b.val) 0

/-- The `k` least-significant bytes of `v`, most significant of them first. -/
def lsBytesBE (v : Nat) : Nat → List Byte
  | 0 => []
  | k + 1 => byte (v / 256 ^ k) :: lsBytesBE v k

/-- The number of trailing bytes that the table of the specification gives for `v`. -/
def specTrailing (v : Nat) : Nat :=
  if v < 248 then 0
  else if v < 256 then 1
  else if v < 65536 then 2
  else if v < 2 ^ 24 then 3
  else if v < 2 ^ 32 then 4
  else if v < 2 ^ 40 then 5
  else if v < 2 ^ 48 then 6
  else if v < 2 ^ 56 then 7
  else 8

/-- The header byte that the table of the specification gives for `v`: `v` itself
below 248, and 247 plus the number of trailing bytes from there on. -/
def specHeader (v : Nat) : Nat :=
  if v < 248 then v else 247 + specTrailing v

/-- The canonical VarU64 encoding as the specification describes it: the header
byte, then the trailing bytes, which are the least-significant bytes of `v`,
most significant of them first. -/
def specVarU64 (v : Nat) : List Byte :=
  byte (specHeader v) :: lsBytesBE v (specTrailing v)

/-- Bytewise lexicographic order (`bytes.Compare(a, b) < 0`). -/
def lexLess : List Byte → List Byte → Bool
  | [], [] => false
  | [], _ :: _ => true
  | _ :: _, [] => false
  | a :: as, b :: bs => decide (a.val < b.val) || (decide (a = b) && lexLess as bs)

/-- An input that ends before a VarU64 field is complete: it is empty, or its
header byte announces more trailing bytes than there are. -/
def varU64Truncated : List Byte → Bool
  | [] => true
  | b :: q => decide (248 ≤ b.val) && decide (q.length < b.val - 247)

/-- The registry after a sequence of `RegisterHash` calls, given in the order in
which they were made. -/
def registerAll (reg : hashRegistry) (calls : List (Nat × HashCtor)) : hashRegistry :=
  calls.foldl (fun reg call => RegisterHash reg call.1 call.2) reg

/-- The constructor most recently registered for `id` in a sequence of
`RegisterHash` calls, if there is one. -/
def lastRegistered (calls : List (Nat × HashCtor)) (id : Nat) : Option HashCtor :=
  (calls.reverse.find? (fun call => call.1 == id)).map (fun call => call.2)

/-- The hexadecimal text of a byte sequence, as `hex.EncodeToString` writes it. -/
def hexEncode : List Byte → List Byte
  | [] => []
  | b :: bs =>
    let digit (n : Nat) : Byte := if n < 10 then byte (48 + n) else byte (97 + (n - 10))
    digit (b.val / 16) :: digit (b.val % 16) :: hexEncode bs

end yamf

/-! ## The test vectors of the repository -/

namespace varu64

open yamf

theorem WriteUint64_test_vectors :
    (WriteUint64 [] 0).1 = [0] ∧ (WriteUint64 [] 1).1 = [1] ∧ (WriteUint64 [] 247).1 = [247] ∧
      (WriteUint64 [] 248).1 = [248, 248] ∧ (WriteUint64 [] 255).1 = [248, 255] ∧
      (WriteUint64 [] 256).1 = [249, 1, 0] ∧ (WriteUint64 [] 65535).1 = [249, 255, 255] ∧
      (WriteUint64 [] 65536).1 = [250, 1, 0, 0] ∧
      (WriteUint64 [] 72057594037927935).1 = [254, 255, 255, 255, 255, 255, 255, 255] ∧
      (WriteUint64 [] 72057594037927936).1 = [255, 1, 0, 0, 0, 0, 0, 0, 0] ∧
      (WriteUint64 [] 18446744073709551615).1 =
        [255, 255, 255, 255, 255, 255, 255, 255, 255] := by
  decide

theorem ReadUint64_test_vectors :
    ReadUint64 [] = (0, 0, some Error.ErrUnexpectedEOF, []) ∧
      ReadUint64 [249] = (0, 0, some Error.ErrUnexpectedEOF, []) ∧
      ReadUint64 [249, 1] = (0, 1, some Error.ErrUnexpectedEOF, []) ∧
      ReadUint64 [255, 255, 255, 255, 255, 255, 255, 255] =
        (0, 7, some Error.ErrUnexpectedEOF, []) ∧
      ReadUint64 [248, 42] = (42, 2, some Error.ErrNonCanonical, []) ∧
      ReadUint64 [249, 0, 42] = (42, 3, some Error.ErrNonCanonical, []) := by
  refine ⟨?_, ?_, ?_, ?_, ?_, ?_⟩ <;> decide

theorem UnmarshalText_test_vectors :
    (U64 0).UnmarshalText [] = some (U64 0, some Error.ErrUnexpectedEOF) ∧
      (U64 0).UnmarshalText [102, 57] = some (U64 0, some Error.ErrUnexpectedEOF) ∧
      (U64 0).UnmarshalText [102, 57, 48, 49] = some (U64 0, some Error.ErrUnexpectedEOF) ∧
      (U64 0).UnmarshalText (List.replicate 17 102)
        = some (U64 0, some Error.ErrUnexpectedEOF) ∧
      (U64 0).UnmarshalText [102, 56, 50, 97] = some (U64 0, some Error.ErrNonCanonical) ∧
      (U64 0).UnmarshalText [102, 57, 48, 48, 50, 97]
        = some (U64 0, some Error.ErrNonCanonical) ∧
      (U64 5).UnmarshalText [48, 48] = some (U64 0, none) ∧
      (U64 0).UnmarshalText ([102, 101] ++ List.replicate 14 102)
        = some (U64 72057594037927935, none) := by
  refine ⟨?_, ?_, ?_, ?_, ?_, ?_, ?_, ?_⟩ <;> decide

end varu64

namespace yamf

theorem TypeValue_test_vectors :
    TypeValue.MarshalBinary ⟨0, []⟩ = ([0, 0], none) ∧
      TypeValue.MarshalBinary ⟨1, [116, 101, 115, 116]⟩ = ([1, 4, 116, 101, 115, 116], none) ∧
      TypeValue.UnmarshalBinary 1024 ⟨0, []⟩ [1, 4, 116, 101, 115, 116] =
        (⟨1, [116, 101, 115, 116]⟩, none) ∧
      (TypeValue.UnmarshalBinary 1024 ⟨0, []⟩ []).2 = some Error.ErrUnexpectedEOF ∧
      (TypeValue.UnmarshalBinary 1024 ⟨0, []⟩ [0]).2 = some Error.ErrUnexpectedEOF ∧
      (TypeValue.UnmarshalBinary 1024 ⟨0, []⟩ [0, 1]).2 = some Error.ErrUnexpectedEOF ∧
      (TypeValue.UnmarshalBinary 1024 ⟨0, []⟩ [0, 2, 1]).2 = some Error.ErrUnexpectedEOF ∧
      (TypeValue.UnmarshalBinary 1024 ⟨0, []⟩ [248, 42, 1, 1]).2 = some Error.ErrNonCanonical := by
  refine ⟨?_, ?_, ?_, ?_, ?_, ?_, ?_, ?_⟩ <;> decide

end yamf

/-! ## Lemmas on bytes and big-endian integers -/

namespace yamf

theorem byte_val (x : Nat) : (byte x).val = x % 256 := rfl

theorem byte_of_val (b : Byte) : byte b.val = b := by
  apply Fin.ext
  simp [byte_val, Nat.mod_eq_of_lt b.isLt]

set_option maxRecDepth 100000 in
theorem header_or_seven (b : Byte) : b.val ||| 7 = 255 ↔ 248 ≤ b.val := by
  revert b; decide

set_option maxRecDepth 100000 in
theorem header_and_seven (b : Byte) (h : 248 ≤ b.val) : (b.val &&& 7) + 1 = b.val - 247 := by
  revert b; decide

theorem or_shift_eq_add (x y k : Nat) (h : x < 2 ^ k) : x ||| y <<< k = 2 ^ k * y + x := by
  rw [Nat.lor_comm, Nat.shiftLeft_eq, Nat.mul_comm y, Nat.mul_add_lt_is_or h]

theorem BigEndianUint64_eight (a0 a1 a2 a3 a4 a5 a6 a7 : Byte) :
    BigEndianUint64 [a0, a1, a2, a3, a4, a5, a6, a7] =
      ((((((a0.val * 256 + a1.val) * 256 + a2.val) * 256 + a3.val) * 256 + a4.val) * 256
        + a5.val) * 256 + a6.val) * 256 + a7.val := by
  have h0 := a0.isLt
  have h1 := a1.isLt
  have h2 := a2.isLt
  have h3 := a3.isLt
  have h4 := a4.isLt
  have h5 := a5.isLt
  have h6 := a6.isLt
  have h7 := a7.isLt
  simp only [BigEndianUint64, List.getD_cons_zero, List.getD_cons_succ]
  rw [or_shift_eq_add _ _ 8 (by omega)]
  rw [or_shift_eq_add _ _ 16 (by omega)]
  rw [or_shift_eq_add _ _ 24 (by omega)]
  rw [or_shift_eq_add _ _ 32 (by omega)]
  rw [or_shift_eq_add _ _ 40 (by omega)]
  rw [or_shift_eq_add _ _ 48 (by omega)]
  rw [or_shift_eq_add _ _ 56 (by omega)]
  omega

theorem foldl_beValue (bs : List Byte) (acc : Nat) :
    bs.foldl (fun acc b => acc * 256 + b.val) acc = acc * 256 ^ bs.length + beValue bs := by
  induction bs generalizing acc with
  | nil => simp [beValue]
  | cons a q ih =>
    simp only [List.foldl_cons, List.length_cons, beValue]
    rw [ih (acc * 256 + a.val), ih (0 * 256 + a.val)]
    ring

theorem beValue_nil : beValue [] = 0 := rfl

theorem beValue_cons (a : Byte) (q : List Byte) :
    beValue (a :: q) = a.val * 256 ^ q.length + beValue q := by
  simp only [beValue, List.foldl_cons]
  rw [foldl_beValue q (0 * 256 + a.val)]
  simp [beValue]

theorem beValue_lt (bs : List Byte) : beValue bs < 256 ^ bs.length := by
  induction bs with
  | nil => simp [beValue]
  | cons a q ih =>
    rw [beValue_cons, List.length_cons, pow_succ]
    have ha := a.isLt
    have hp : 0 < 256 ^ q.length := by positivity
    nlinarith

theorem length_lsBytesBE (v k : Nat) : (lsBytesBE v k).length = k := by
  induction k with
  | zero => rfl
  | succ k ih => simp [lsBytesBE, ih]

theorem beValue_lsBytesBE (v k : Nat) : beValue (lsBytesBE v k) = v % 256 ^ k := by
  induction k with
  | zero => simp [lsBytesBE, beValue, Nat.mod_one]
  | succ k ih =>
    rw [lsBytesBE, beValue_cons, length_lsBytesBE, ih, byte_val, Nat.mod_pow_succ]
    ring

theorem lsBytesBE_mod (v k : Nat) : lsBytesBE (v % 256 ^ k) k = lsBytesBE v k := by
  induction k generalizing v with
  | zero => rfl
  | succ k ih =>
    have h1 : v % 256 ^ (k + 1) / 256 ^ k % 256 = v / 256 ^ k % 256 := by
      rw [Nat.mod_pow_succ]
      have hp : 0 < 256 ^ k := by positivity
      rw [Nat.add_mul_div_left _ _ hp, Nat.div_eq_of_lt (Nat.mod_lt _ hp)]
      simp
    have h2 : v % 256 ^ (k + 1) % 256 ^ k = v % 256 ^ k := by
      rw [pow_succ, Nat.mod_mul_right_mod]
    simp only [lsBytesBE]
    congr 1
    · apply Fin.ext
      simp only [byte_val, h1]
    · rw [← ih (v % 256 ^ (k + 1)), h2, ih]

theorem lsBytesBE_beValue (q : List Byte) : lsBytesBE (beValue q) q.length = q := by
  induction q with
  | nil => rfl
  | cons a q ih =>
    have hlt := beValue_lt q
    have hp : 0 < 256 ^ q.length := by positivity
    rw [List.length_cons, lsBytesBE, beValue_cons]
    congr 1
    · apply Fin.ext
      rw [byte_val, Nat.mul_comm, Nat.mul_add_div hp, Nat.div_eq_of_lt hlt]
      simp [Nat.mod_eq_of_lt a.isLt]
    · rw [← lsBytesBE_mod, Nat.mul_comm, Nat.mul_add_mod, Nat.mod_eq_of_lt hlt, ih]

theorem BigEndianUint64_pad (q : List Byte) (h : q.length ≤ 8) :
    BigEndianUint64 (List.replicate (8 - q.length) 0 ++ q) = beValue q := by
  rcases q with _ | ⟨a, _ | ⟨b, _ | ⟨c, _ | ⟨d, _ | ⟨e, _ | ⟨f, _ | ⟨g, _ | ⟨i, _ | ⟨j, q⟩⟩⟩⟩⟩⟩⟩⟩⟩
  all_goals first
    | (simp only [List.length_cons] at h; omega)
    | (simp only [List.length_cons, List.length_nil, List.replicate, Nat.reduceAdd, Nat.reduceSub,
        List.cons_append, List.nil_append, List.append_nil, BigEndianUint64_eight, beValue,
        List.foldl_cons, List.foldl_nil]
       simp)

end yamf

/-! ## The reader and the VarU64 decoder -/

namespace varu64

open yamf

theorem ioReadFull_append (q rest : List Byte) (m : Nat) (hq : q.length = m) (hm : 0 < m) :
    ioReadFull (q ++ rest) m = (q, none, rest) := by
  subst hq
  have hne : q ≠ [] := by
    intro h
    simp [h] at hm
  simp [ioReadFull, hne, Nat.ne_of_gt hm]

theorem ioReadFull_short (r : List Byte) (m : Nat) (h : r.length < m) :
    ioReadFull r m = (r, some (if r = [] then Error.EOF else Error.ErrUnexpectedEOF), []) := by
  have hm : m ≠ 0 := by omega
  by_cases hr : r = []
  · simp [ioReadFull, hr, hm]
  · simp [ioReadFull, hr, hm, h]

theorem ReadUint64_nil : ReadUint64 [] = (0, 0, some Error.ErrUnexpectedEOF, []) := by
  decide

theorem ReadUint64_small (b : Byte) (rest : List Byte) (h : b.val < 248) :
    ReadUint64 (b :: rest) = (b.val, 1, none, rest) := by
  have hor : ¬ (b.val ||| 7 = 255) := by
    rw [header_or_seven]
    omega
  simp [ReadUint64, bufferRead, hor]

theorem scratch_buffer (b : Byte) (q : List Byte) (h1 : 1 ≤ q.length) (h8 : q.length ≤ 8) :
    (List.take (9 - q.length) (b :: List.replicate 8 (0 : Byte)) ++ q).drop 1 =
      List.replicate (8 - q.length) 0 ++ q := by
  have h9 : 9 - q.length = (8 - q.length) + 1 := by omega
  rw [h9, List.take_succ_cons, List.cons_append, List.drop_succ_cons, List.drop_zero,
    List.take_replicate]
  congr 2
  omega

theorem ReadUint64_big (b : Byte) (q rest : List Byte) (h : 248 ≤ b.val)
    (hq : q.length = b.val - 247) :
    ReadUint64 (b :: (q ++ rest)) =
      (beValue q, q.length + 1,
        if q.length ≠ (encodingParams (beValue q)).2 then some Error.ErrNonCanonical else none,
        rest) := by
  have hb := b.isLt
  have hor : b.val ||| 7 = 255 := (header_or_seven b).2 h
  have hlen : (b.val &&& 7) + 1 = q.length := by
    rw [header_and_seven b h, hq]
  have hrd : ioReadFull (q ++ rest) q.length = (q, none, rest) :=
    ioReadFull_append q rest q.length rfl (by omega)
  have hbuf := scratch_buffer b q (by omega) (by omega)
  have hpad := BigEndianUint64_pad q (by omega)
  simp only [ReadUint64, bufferRead, List.isEmpty_cons, Bool.false_eq_true, if_false,
    List.take_succ_cons, List.take_zero, List.drop_succ_cons, List.drop_zero, List.length_cons,
    List.length_nil, List.cons_append, List.nil_append, List.getD_cons_zero, hor, hlen, hrd,
    ne_eq, not_true_eq_false, List.length_replicate, Nat.zero_add, List.replicate]
  simp only [List.replicate] at hbuf
  rw [hbuf, hpad]
  split <;> simp_all

theorem ReadUint64_trunc (b : Byte) (q : List Byte) (h : 248 ≤ b.val)
    (hq : q.length < b.val - 247) :
    ReadUint64 (b :: q) = (0, q.length, some Error.ErrUnexpectedEOF, []) := by
  have hor : b.val ||| 7 = 255 := (header_or_seven b).2 h
  have hlen : (b.val &&& 7) + 1 = b.val - 247 := header_and_seven b h
  have hrd := ioReadFull_short q (b.val - 247) hq
  simp only [ReadUint64, bufferRead, List.isEmpty_cons, Bool.false_eq_true, if_false,
    List.take_succ_cons, List.take_zero, List.drop_succ_cons, List.drop_zero, List.length_cons,
    List.length_nil, List.cons_append, List.nil_append, List.getD_cons_zero, hor, hlen, hrd,
    ne_eq, not_true_eq_false, List.length_replicate, Nat.zero_add, List.replicate]
  by_cases hq0 : q = [] <;> simp [hq0, eofToUnexpectedEOF]

end varu64

/-! ## The VarU64 encoder -/

namespace varu64

open yamf

theorem encodingParams_small (v : Nat) (h : v < 248) : encodingParams v = (byte v, 0) := by
  simp [encodingParams, h]

theorem encodingParams_big (v : Nat) (h : 248 ≤ v) (hv : v < 2 ^ 64) :
    1 ≤ (encodingParams v).2 ∧ (encodingParams v).2 ≤ 8 ∧
      (encodingParams v).1.val = 247 + (encodingParams v).2 ∧
      v < 256 ^ (encodingParams v).2 ∧
      ((encodingParams v).2 = 1 ∨ 256 ^ ((encodingParams v).2 - 1) ≤ v) := by
  unfold encodingParams
  split_ifs <;> simp <;> omega

theorem encodingParams_le (v k : Nat) (hk : 1 ≤ k) (h : v < 256 ^ k) :
    (encodingParams v).2 ≤ k := by
  by_cases hk8 : 8 ≤ k
  · have : (encodingParams v).2 ≤ 8 := by
      unfold encodingParams
      split_ifs <;> simp
    omega
  · have hk7 : k ≤ 7 := by omega
    interval_cases k <;> simp at h <;> unfold encodingParams <;> split_ifs <;> simp

theorem WriteUint64_eq (w : List Byte) (v : Nat) :
    WriteUint64 w v =
      (w ++ (encodingParams v).1 :: lsBytesBE v (encodingParams v).2,
        1 + (encodingParams v).2, none) := by
  unfold encodingParams
  split_ifs <;>
    simp [WriteUint64, encodingParams, PutUint64, lsBytesBE, bufferWrite,
      Nat.shiftRight_eq_div_pow, *]

end varu64

/-! ## VarU64: round trip and byte format -/

namespace varu64

open yamf

theorem ReadUint64_WriteUint64_append (v : Nat) (hv : v < 2 ^ 64) (rest : List Byte) :
    ReadUint64 ((WriteUint64 [] v).1 ++ rest) = (v, (WriteUint64 [] v).2.1, none, rest) := by
  rw [WriteUint64_eq]
  by_cases h : v < 248
  · rw [encodingParams_small v h]
    have hb : (byte v).val = v := by
      rw [byte_val]
      omega
    have hs := ReadUint64_small (byte v) rest (by omega)
    simpa [lsBytesBE, hb] using hs
  · obtain ⟨h1, h8, hh, hlt, _⟩ := encodingParams_big v (by omega) hv
    have hlen := length_lsBytesBE v (encodingParams v).2
    have hval : beValue (lsBytesBE v (encodingParams v).2) = v := by
      rw [beValue_lsBytesBE, Nat.mod_eq_of_lt hlt]
    have hbig := ReadUint64_big (encodingParams v).1 (lsBytesBE v (encodingParams v).2) rest
      (by omega) (by omega)
    rw [hval, hlen] at hbig
    simp only [List.nil_append, List.cons_append]
    rw [hbig]
    simp [Nat.add_comm]

/-- C1. VarU64 round trip: for every 64-bit unsigned `v`, `ReadUint64` on the bytes
produced by `WriteUint64` returns `v`, a count equal to the number of bytes
written (the count `WriteUint64` returned, which is the length of its output)
and a nil error, hence not `ErrNonCanonical`; the same holds through the
methods `MarshalBinary` and `UnmarshalBinary` of `Uint64`. -/
theorem varu64_round_trip (v : Nat) (hv : v < 2 ^ 64) :
    ReadUint64 (WriteUint64 [] v).1 = (v, (WriteUint64 [] v).2.1, none, []) ∧
      (WriteUint64 [] v).2.1 = (WriteUint64 [] v).1.length ∧
      (WriteUint64 [] v).2.2 = none ∧
      (U64 0).UnmarshalBinary (U64 v).MarshalBinary.1 = (U64 v, none) := by
  have h := ReadUint64_WriteUint64_append v hv []
  rw [List.append_nil] at h
  refine ⟨h, ?_, ?_, ?_⟩
  · rw [WriteUint64_eq]
    simp [length_lsBytesBE, Nat.add_comm]
  · rw [WriteUint64_eq]
  · have hw : (WriteUint64 [] v).2.2 = none := by rw [WriteUint64_eq]
    simp only [Uint64.UnmarshalBinary, Uint64.MarshalBinary, Uint64.WriteTo, Uint64.ReadFrom, U64]
    rcases hW : WriteUint64 [] v with ⟨b, n, e⟩
    rw [hW] at h hw
    simp only at h hw
    subst hw
    simp [h]

theorem varu64_round_trip_witness :
    ReadUint64 (WriteUint64 [] 65536).1 = (65536, (WriteUint64 [] 65536).2.1, none, []) ∧
      (WriteUint64 [] 65536).2.1 = (WriteUint64 [] 65536).1.length ∧
      (WriteUint64 [] 65536).2.2 = none ∧
      (U64 0).UnmarshalBinary (U64 65536).MarshalBinary.1 = (U64 65536, none) :=
  varu64_round_trip 65536 (by norm_num)

/-- C2. Byte-exact VarU64 format: for every 64-bit unsigned `v`, `WriteUint64`
appends one header byte followed by `k` trailing bytes and returns the count
`1 + k`; for `v < 248` the header is `v` and `k = 0`, otherwise `1 ≤ k ≤ 8`,
the header is `247 + k` and `k` is fixed by the range of `v`
(`248 ≤ v < 256` for `k = 1`, else `256 ^ (k - 1) ≤ v < 256 ^ k`); the
trailing bytes are the `k` least-significant bytes of `v`, big-endian. -/
theorem WriteUint64_format (w : List Byte) (v : Nat) (hv : v < 2 ^ 64) :
    ∃ (header : Byte) (k : Nat),
      WriteUint64 w v = (w ++ header :: lsBytesBE v k, 1 + k, none) ∧
      (lsBytesBE v k).length = k ∧
      beValue (lsBytesBE v k) = v % 256 ^ k ∧
      (v < 248 → header.val = v ∧ k = 0) ∧
      (248 ≤ v → 1 ≤ k ∧ k ≤ 8 ∧ header.val = 247 + k ∧ v < 256 ^ k ∧
        (k = 1 ∨ 256 ^ (k - 1) ≤ v)) := by
  refine ⟨(encodingParams v).1, (encodingParams v).2, WriteUint64_eq w v,
    length_lsBytesBE _ _, beValue_lsBytesBE _ _, ?_, ?_⟩
  · intro h
    rw [encodingParams_small v h]
    refine ⟨?_, rfl⟩
    show (byte v).val = v
    rw [byte_val]
    omega
  · intro h
    exact encodingParams_big v h hv

theorem WriteUint64_format_witness :
    ∃ (header : Byte) (k : Nat),
      WriteUint64 [7] 65535 = ([7] ++ header :: lsBytesBE 65535 k, 1 + k, none) ∧
      (lsBytesBE 65535 k).length = k ∧
      beValue (lsBytesBE 65535 k) = 65535 % 256 ^ k ∧
      (65535 < 248 → header.val = 65535 ∧ k = 0) ∧
      (248 ≤ 65535 → 1 ≤ k ∧ k ≤ 8 ∧ header.val = 247 + k ∧ 65535 < 256 ^ k ∧
        (k = 1 ∨ 256 ^ (k - 1) ≤ 65535)) :=
  WriteUint64_format [7] 65535 (by norm_num)

end varu64

/-! ## VarU64: non-canonical input, truncated input, minimal length -/

namespace varu64

open yamf

theorem noncanonical_iff_shorter (v k : Nat) (h1 : 1 ≤ k) (h8 : k ≤ 8) (hlt : v < 256 ^ k) :
    k ≠ (encodingParams v).2 ↔ (v < 248 ∨ ∃ j, 1 ≤ j ∧ j < k ∧ v < 256 ^ j) := by
  have hle := encodingParams_le v k h1 hlt
  have hv : v < 2 ^ 64 := by
    have : (256 : Nat) ^ k ≤ 256 ^ 8 := Nat.pow_le_pow_right (by norm_num) h8
    have h64 : (256 : Nat) ^ 8 = 2 ^ 64 := by norm_num
    omega
  constructor
  · intro hne
    by_cases hs : v < 248
    · exact Or.inl hs
    · obtain ⟨hl1, _, _, hl, _⟩ := encodingParams_big v (by omega) hv
      exact Or.inr ⟨(encodingParams v).2, hl1, by omega, hl⟩
  · rintro (hs | ⟨j, hj1, hjk, hj⟩)
    · rw [encodingParams_small v hs]
      simp only
      omega
    · have := encodingParams_le v j hj1 hj
      omega

/-- C5. Non-canonical detection: for every header byte `h` in `248..255` followed by
at least `k = (h & 7) + 1` bytes, `ReadUint64` returns the big-endian value
of those `k` bytes, the count `k + 1` and leaves the bytes after them unread;
its error is `ErrNonCanonical` exactly when the value fits a shorter class
(it is below 248, or below `256 ^ j` for some `1 ≤ j < k`), and nil
otherwise. -/
theorem ReadUint64_noncanonical_detection (h : Byte) (q rest : List Byte) (hh : 248 ≤ h.val)
    (hq : q.length = (h.val &&& 7) + 1) :
    ∃ err, ReadUint64 (h :: (q ++ rest)) = (beValue q, q.length + 1, err, rest) ∧
      (err = some Error.ErrNonCanonical ↔
        (beValue q < 248 ∨ ∃ j, 1 ≤ j ∧ j < q.length ∧ beValue q < 256 ^ j)) ∧
      (err ≠ some Error.ErrNonCanonical → err = none) := by
  have hb := h.isLt
  have hk := header_and_seven h hh
  have hbig := ReadUint64_big h q rest hh (by omega)
  have hiff := noncanonical_iff_shorter (beValue q) q.length (by omega) (by omega) (beValue_lt q)
  refine ⟨_, hbig, ?_, ?_⟩
  · rw [← hiff]
    by_cases hc : q.length = (encodingParams (beValue q)).2 <;> simp [hc]
  · by_cases hc : q.length = (encodingParams (beValue q)).2 <;> simp [hc]

theorem ReadUint64_noncanonical_detection_witness :
    ∃ err, ReadUint64 (249 :: ([0, 42] ++ [9])) = (beValue [0, 42], [0, 42].length + 1, err, [9]) ∧
      (err = some Error.ErrNonCanonical ↔
        (beValue [0, 42] < 248 ∨
          ∃ j, 1 ≤ j ∧ j < ([0, 42] : List Byte).length ∧ beValue [0, 42] < 256 ^ j)) ∧
      (err ≠ some Error.ErrNonCanonical → err = none) :=
  ReadUint64_noncanonical_detection 249 [0, 42] [9] (by decide) (by decide)

/-- C6. VarU64 truncation law: for every 64-bit unsigned `v` and every proper initial
segment of the output of `WriteUint64`, the empty one included, `ReadUint64`
fails with `io.ErrUnexpectedEOF`. -/
theorem ReadUint64_truncated (v : Nat) (hv : v < 2 ^ 64) (n : Nat)
    (hn : n < (WriteUint64 [] v).1.length) :
    (ReadUint64 ((WriteUint64 [] v).1.take n)).2.2.1 = some Error.ErrUnexpectedEOF := by
  rw [WriteUint64_eq] at hn ⊢
  simp only [List.nil_append, List.length_cons, length_lsBytesBE] at hn ⊢
  cases n with
  | zero => simp [ReadUint64_nil]
  | succ m =>
    have hm : m < (encodingParams v).2 := by omega
    have hbigv : 248 ≤ v := by
      by_contra hs
      rw [encodingParams_small v (by omega)] at hm
      simp at hm
    obtain ⟨_, _, hh, _, _⟩ := encodingParams_big v hbigv hv
    have hlen : (List.take m (lsBytesBE v (encodingParams v).2)).length = m := by
      rw [List.length_take, length_lsBytesBE]
      omega
    rw [List.take_succ_cons, ReadUint64_trunc _ _ (by omega) (by omega)]

theorem ReadUint64_truncated_witness :
    (ReadUint64 ((WriteUint64 [] 65536).1.take 2)).2.2.1 = some Error.ErrUnexpectedEOF :=
  ReadUint64_truncated 65536 (by norm_num) 2 (by decide)

/-- C7. Minimality law: for every 64-bit unsigned `v`, the count returned by
`Uint64.WriteTo` and the count returned by `Uint64.ReadFrom` on the written
bytes are both `1 + k`, where `k = 0` if `v < 248` and otherwise `k` is the
least number with `v < 256 ^ k`; the count is at most 9. -/
theorem Uint64_counts_minimal (v : Nat) (hv : v < 2 ^ 64) (recv : Uint64) :
    ∃ k, ((U64 v).WriteTo []).2.1 = 1 + k ∧
      (recv.ReadFrom ((U64 v).WriteTo []).1).2.1 = 1 + k ∧
      (v < 248 → k = 0) ∧
      (248 ≤ v → v < 256 ^ k ∧ ∀ j, v < 256 ^ j → k ≤ j) ∧
      1 + k ≤ 9 := by
  have hrt := ReadUint64_WriteUint64_append v hv []
  rw [List.append_nil] at hrt
  have hw := WriteUint64_eq [] v
  refine ⟨(encodingParams v).2, ?_, ?_, ?_, ?_, ?_⟩
  · simp [Uint64.WriteTo, U64, hw]
  · simp [Uint64.WriteTo, Uint64.ReadFrom, U64, hrt]
    rw [hw]
  · intro h
    rw [encodingParams_small v h]
  · intro h
    obtain ⟨h1, _, _, hlt, hge⟩ := encodingParams_big v h hv
    refine ⟨hlt, ?_⟩
    intro j hj
    by_contra hcon
    have hjk : j ≤ (encodingParams v).2 - 1 := by omega
    have hpow : (256 : Nat) ^ j ≤ 256 ^ ((encodingParams v).2 - 1) :=
      Nat.pow_le_pow_right (by norm_num) hjk
    rcases hge with h1k | hge
    · have hj0 : j = 0 := by omega
      subst hj0
      simp at hj
      omega
    · omega
  · by_cases h : v < 248
    · rw [encodingParams_small v h]
      simp
    · obtain ⟨_, h8, _⟩ := encodingParams_big v (by omega) hv
      omega

theorem Uint64_counts_minimal_witness :
    ∃ k, ((U64 4294967295).WriteTo []).2.1 = 1 + k ∧
      ((U64 4294967295).ReadFrom ((U64 4294967295).WriteTo []).1).2.1 = 1 + k ∧
      (4294967295 < 248 → k = 0) ∧
      (248 ≤ 4294967295 → 4294967295 < 256 ^ k ∧ ∀ j, 4294967295 < 256 ^ j → k ≤ j) ∧
      1 + k ≤ 9 :=
  Uint64_counts_minimal 4294967295 (by norm_num) (U64 4294967295)

end varu64

/-! ## VarU64: uniqueness of the canonical encoding -/

namespace varu64

open yamf

/-- Shape of an input that `ReadUint64` decodes completely: one byte below 248,
or a header of at least 248 followed by exactly the announced bytes. -/
theorem ReadUint64_complete (bs : List Byte)
    (hn : (ReadUint64 bs).2.1 = bs.length)
    (he : (ReadUint64 bs).2.2.1 = none ∨ (ReadUint64 bs).2.2.1 = some Error.ErrNonCanonical) :
    (∃ b : Byte, bs = [b] ∧ b.val < 248 ∧ ReadUint64 bs = (b.val, 1, none, [])) ∨
    (∃ (b : Byte) (q : List Byte), bs = b :: q ∧ 248 ≤ b.val ∧ q.length = b.val - 247 ∧
      ReadUint64 bs = (beValue q, q.length + 1,
        if q.length ≠ (encodingParams (beValue q)).2 then some Error.ErrNonCanonical else none,
        [])) := by
  rcases bs with _ | ⟨b, t⟩
  · rw [ReadUint64_nil] at he
    simp at he
  · by_cases hb : b.val < 248
    · left
      rw [ReadUint64_small b t hb] at hn
      simp only [List.length_cons] at hn
      have ht : t = [] := List.eq_nil_of_length_eq_zero (by omega)
      subst ht
      exact ⟨b, rfl, hb, ReadUint64_small b [] hb⟩
    · right
      by_cases ht : t.length < b.val - 247
      · rw [ReadUint64_trunc b t (by omega) ht] at he
        simp at he
      · have hsplit : t = t.take (b.val - 247) ++ t.drop (b.val - 247) :=
          (List.take_append_drop _ _).symm
        have hlen : (t.take (b.val - 247)).length = b.val - 247 := by
          rw [List.length_take]
          omega
        have hbig := ReadUint64_big b (t.take (b.val - 247)) (t.drop (b.val - 247))
          (by omega) hlen
        rw [← hsplit] at hbig
        rw [hbig] at hn
        simp only [List.length_cons] at hn
        have hdrop : t.drop (b.val - 247) = [] := by
          apply List.eq_nil_of_length_eq_zero
          rw [List.length_drop]
          omega
        have htake : t.take (b.val - 247) = t := by
          rw [hdrop, List.append_nil] at hsplit
          exact hsplit.symm
        rw [htake, hdrop] at hbig
        rw [htake] at hlen
        exact ⟨b, t, rfl, by omega, hlen, hbig⟩

/-- C8. Canonical uniqueness: for every 64-bit unsigned `v`, a byte sequence is
decoded completely (count equal to its length) to `v` with a nil error
exactly when it is the output of `WriteUint64` for `v`; every other byte
sequence decoded completely to `v` (error nil or `ErrNonCanonical`) is
strictly longer than that output and is reported with `ErrNonCanonical`. -/
theorem canonical_encoding_unique (v : Nat) (hv : v < 2 ^ 64) (bs : List Byte) :
    (((ReadUint64 bs).1 = v ∧ (ReadUint64 bs).2.1 = bs.length ∧ (ReadUint64 bs).2.2.1 = none) ↔
        bs = (WriteUint64 [] v).1) ∧
    (bs ≠ (WriteUint64 [] v).1 → (ReadUint64 bs).1 = v → (ReadUint64 bs).2.1 = bs.length →
      ((ReadUint64 bs).2.2.1 = none ∨ (ReadUint64 bs).2.2.1 = some Error.ErrNonCanonical) →
      (WriteUint64 [] v).1.length < bs.length ∧
        (ReadUint64 bs).2.2.1 = some Error.ErrNonCanonical) := by
  have hrt := ReadUint64_WriteUint64_append v hv []
  rw [List.append_nil] at hrt
  have hw := WriteUint64_eq [] v
  have hwl : (WriteUint64 [] v).2.1 = (WriteUint64 [] v).1.length := by
    rw [hw]
    simp [length_lsBytesBE, Nat.add_comm]
  -- what a complete decoding to `v` looks like
  have key : (ReadUint64 bs).1 = v → (ReadUint64 bs).2.1 = bs.length →
      ((ReadUint64 bs).2.2.1 = none ∨ (ReadUint64 bs).2.2.1 = some Error.ErrNonCanonical) →
      (bs = (WriteUint64 [] v).1 ∨
        ((WriteUint64 [] v).1.length < bs.length ∧
          (ReadUint64 bs).2.2.1 = some Error.ErrNonCanonical)) := by
    intro h1 h2 h3
    rcases ReadUint64_complete bs h2 h3 with ⟨b, hbs, hb, hr⟩ | ⟨b, q, hbs, hb, hq, hr⟩
    · left
      rw [hr] at h1
      simp only at h1
      subst h1
      rw [hw, encodingParams_small _ hb, hbs]
      simp [lsBytesBE, byte_of_val]
    · rw [hr] at h1
      simp only at h1
      have hblt := b.isLt
      have hle := encodingParams_le (beValue q) q.length (by omega) (beValue_lt q)
      by_cases hc : q.length = (encodingParams (beValue q)).2
      · left
        have hv248 : 248 ≤ v := by
          by_contra hs
          have h0 : (encodingParams v).2 = 0 := by rw [encodingParams_small v (by omega)]
          rw [h1, h0] at hc
          omega
        obtain ⟨_, _, hh, _, _⟩ := encodingParams_big v hv248 hv
        rw [hw, hbs]
        simp only [List.nil_append]
        rw [h1] at hc
        congr 1
        · apply Fin.ext
          omega
        · rw [← hc, ← h1]
          exact (lsBytesBE_beValue q).symm
      · right
        rw [hr, hw, hbs]
        simp only [List.nil_append, List.length_cons, length_lsBytesBE, ne_eq, hc,
          not_false_eq_true, if_true, and_true]
        rw [← h1]
        omega
  constructor
  · constructor
    · rintro ⟨h1, h2, h3⟩
      rcases key h1 h2 (Or.inl h3) with h | ⟨_, h⟩
      · exact h
      · rw [h3] at h
        simp at h
    · intro h
      subst h
      rw [hrt]
      exact ⟨rfl, hwl, rfl⟩
  · intro hne h1 h2 h3
    rcases key h1 h2 h3 with h | h
    · exact absurd h hne
    · exact h

theorem canonical_encoding_unique_witness :
    (((ReadUint64 [249, 0, 42]).1 = 42 ∧ (ReadUint64 [249, 0, 42]).2.1 = [249, 0, 42].length ∧
          (ReadUint64 [249, 0, 42]).2.2.1 = none) ↔
        [249, 0, 42] = (WriteUint64 [] 42).1) ∧
    ([249, 0, 42] ≠ (WriteUint64 [] 42).1 → (ReadUint64 [249, 0, 42]).1 = 42 →
      (ReadUint64 [249, 0, 42]).2.1 = [249, 0, 42].length →
      ((ReadUint64 [249, 0, 42]).2.2.1 = none ∨
        (ReadUint64 [249, 0, 42]).2.2.1 = some Error.ErrNonCanonical) →
      (WriteUint64 [] 42).1.length < [249, 0, 42].length ∧
        (ReadUint64 [249, 0, 42]).2.2.1 = some Error.ErrNonCanonical) :=
  canonical_encoding_unique 42 (by norm_num) [249, 0, 42]

end varu64

/-! ## Type-length-value frames: auxiliary facts -/

namespace yamf

open varu64

theorem ReadUint64_error_cases (r : List Byte) :
    (ReadUint64 r).2.2.1 = none ∨ (ReadUint64 r).2.2.1 = some Error.ErrNonCanonical ∨
      (ReadUint64 r).2.2.1 = some Error.ErrUnexpectedEOF := by
  rcases r with _ | ⟨b, t⟩
  · simp [ReadUint64_nil]
  · by_cases hb : b.val < 248
    · simp [ReadUint64_small b t hb]
    · by_cases ht : t.length < b.val - 247
      · simp [ReadUint64_trunc b t (by omega) ht]
      · have hsplit : t = t.take (b.val - 247) ++ t.drop (b.val - 247) :=
          (List.take_append_drop _ _).symm
        have hlen : (t.take (b.val - 247)).length = b.val - 247 := by
          rw [List.length_take]
          omega
        have hbig := ReadUint64_big b (t.take (b.val - 247)) (t.drop (b.val - 247))
          (by omega) hlen
        rw [← hsplit] at hbig
        rw [hbig]
        simp only
        split <;> simp

theorem WriteUint64_append (w : List Byte) (v : Nat) :
    WriteUint64 w v = (w ++ (WriteUint64 [] v).1, (WriteUint64 [] v).1.length, none) := by
  rw [WriteUint64_eq w v, WriteUint64_eq [] v]
  simp [length_lsBytesBE, Nat.add_comm]

theorem scanErrs_three (e0 e1 e2 x : Option Error) :
    scanErrs [e0, e1, e2] 3 x =
      match e2 with
      | some e => some e
      | none =>
        match e1 with
        | some e => some e
        | none => e0 := by
  cases e2 <;> cases e1 <;> cases e0 <;> rfl

theorem readFull_error_cases (r : List Byte) (m : Nat) :
    (readFull r m).2.1 = none ∨ (readFull r m).2.1 = some Error.ErrUnexpectedEOF := by
  unfold readFull ioReadFull
  split_ifs <;> simp_all

theorem readFull_append (q rest : List Byte) (m : Nat) (hq : q.length = m) (hm : 0 < m) :
    readFull (q ++ rest) m = (q, none, rest) := by
  simp [readFull, ioReadFull_append q rest m hq hm]

theorem Uint64_ReadFrom_ok (v : Uint64) (r r1 : List Byte) (val n : Nat) (e : Option Error)
    (h : ReadUint64 r = (val, n, e, r1)) (hn : e = none ∨ e = some Error.ErrNonCanonical) :
    v.ReadFrom r = ({ uint64 := val }, n, e, r1) := by
  simp only [Uint64.ReadFrom, h, hn, if_true]

theorem Uint64_ReadFrom_fatal (v : Uint64) (r r1 : List Byte) (val n : Nat) (e : Option Error)
    (h : ReadUint64 r = (val, n, e, r1)) (hf : e ≠ none ∧ e ≠ some Error.ErrNonCanonical) :
    v.ReadFrom r = (v, n, e, r1) := by
  have hn : ¬ (e = none ∨ e = some Error.ErrNonCanonical) := by
    rintro (h0 | h0)
    · exact hf.1 h0
    · exact hf.2 h0
  simp only [Uint64.ReadFrom, h, hn, if_false]

theorem ReadFrom_type_fatal (c : Int) (recv : TypeValue) (r r1 : List Byte) (ty n1 : Nat)
    (e1 : Option Error) (h1 : ReadUint64 r = (ty, n1, e1, r1))
    (hf : e1 ≠ none ∧ e1 ≠ some Error.ErrNonCanonical) :
    TypeValue.ReadFrom c recv r = (recv, n1, e1, r1) := by
  unfold TypeValue.ReadFrom
  dsimp only
  rw [Uint64_ReadFrom_fatal _ r r1 ty n1 e1 h1 hf]
  dsimp only
  rw [if_pos hf, Nat.zero_add]

theorem ReadFrom_length_fatal (c : Int) (recv : TypeValue) (r r1 r2 : List Byte)
    (ty n1 L n2 : Nat) (e1 e2 : Option Error)
    (h1 : ReadUint64 r = (ty, n1, e1, r1))
    (hn1 : e1 = none ∨ e1 = some Error.ErrNonCanonical)
    (h2 : ReadUint64 r1 = (L, n2, e2, r2))
    (hf : e2 ≠ none ∧ e2 ≠ some Error.ErrNonCanonical) :
    TypeValue.ReadFrom c recv r = ({ recv with Typ := ty }, n1 + n2, e2, r2) := by
  have hf1 : ¬ (e1 ≠ none ∧ e1 ≠ some Error.ErrNonCanonical) := by
    rcases hn1 with rfl | rfl <;> simp
  unfold TypeValue.ReadFrom
  dsimp only
  rw [Uint64_ReadFrom_ok _ r r1 ty n1 e1 h1 hn1]
  dsimp only
  rw [if_neg hf1, Uint64_ReadFrom_fatal _ r1 r2 L n2 e2 h2 hf]
  dsimp only
  rw [if_pos hf, Nat.zero_add]
  rfl

theorem ReadFrom_fields (c : Int) (recv : TypeValue) (r r1 r2 : List Byte)
    (ty n1 L n2 : Nat) (e1 e2 : Option Error)
    (h1 : ReadUint64 r = (ty, n1, e1, r1))
    (hn1 : e1 = none ∨ e1 = some Error.ErrNonCanonical)
    (h2 : ReadUint64 r1 = (L, n2, e2, r2))
    (hn2 : e2 = none ∨ e2 = some Error.ErrNonCanonical) :
    TypeValue.ReadFrom c recv r =
      if L > MaxInt then ({ recv with Typ := ty }, n1 + n2, some Error.ErrValueTooBig, r2)
      else
        ((({ recv with Typ := ty } : TypeValue).readValue c r2 L).1,
          n1 + n2 + (({ recv with Typ := ty } : TypeValue).readValue c r2 L).2.1,
          scanErrs [e1, e2, (({ recv with Typ := ty } : TypeValue).readValue c r2 L).2.2.1] 3
            (({ recv with Typ := ty } : TypeValue).readValue c r2 L).2.2.1,
          (({ recv with Typ := ty } : TypeValue).readValue c r2 L).2.2.2) := by
  have hf1 : ¬ (e1 ≠ none ∧ e1 ≠ some Error.ErrNonCanonical) := by
    rcases hn1 with rfl | rfl <;> simp
  have hf2 : ¬ (e2 ≠ none ∧ e2 ≠ some Error.ErrNonCanonical) := by
    rcases hn2 with rfl | rfl <;> simp
  unfold TypeValue.ReadFrom
  dsimp only
  rw [Uint64_ReadFrom_ok _ r r1 ty n1 e1 h1 hn1]
  dsimp only
  rw [if_neg hf1, Uint64_ReadFrom_ok _ r1 r2 L n2 e2 h2 hn2]
  dsimp only
  rw [if_neg hf2]
  simp only [Uint64.Value, Nat.zero_add]

end yamf

/-! ## Type-length-value frames: layout, round trip, size ceiling -/

namespace yamf

open varu64

theorem WriteTo_eq (tv : TypeValue) (w : List Byte) :
    tv.WriteTo w =
      (w ++ (WriteUint64 [] tv.Typ).1 ++ (WriteUint64 [] (tv.Value.length % 2 ^ 64)).1 ++ tv.Value,
        (WriteUint64 [] tv.Typ).1.length + (WriteUint64 [] (tv.Value.length % 2 ^ 64)).1.length +
          tv.Value.length,
        none) := by
  unfold TypeValue.WriteTo
  dsimp only [Uint64.SetValue, Uint64.WriteTo]
  rw [WriteUint64_append w tv.Typ]
  dsimp only
  rw [WriteUint64_append _ (tv.Value.length % 2 ^ 64)]
  dsimp only
  unfold TypeValue.writeValue bufferWrite
  by_cases h : tv.Value.length > 0
  · simp only [h, if_true, Nat.zero_add]
  · have h0 : tv.Value = [] := List.eq_nil_of_length_eq_zero (by omega)
    simp [h0]

theorem readValue_zero (c : Int) (t : TypeValue) (r : List Byte) :
    t.readValue c r 0 = (t, 0, none, r) := by
  simp [TypeValue.readValue]

theorem readValue_too_big (c : Int) (t : TypeValue) (r : List Byte) (L : Nat) (hL : 0 < L)
    (hc : 0 < c) (hcL : c < (L : Int)) :
    t.readValue c r L = (t, 0, some Error.ErrValueTooBig, r) := by
  simp [TypeValue.readValue, hL, hc, hcL]

theorem readValue_within (c : Int) (t : TypeValue) (r : List Byte) (L : Nat) (hL : 0 < L)
    (hc : ¬ (c > 0 ∧ (L : Int) > c)) :
    t.readValue c r L =
      ({ t with Value := (readFull r L).1 ++ (List.replicate L (0 : Byte)).drop (readFull r L).1.length },
        (readFull r L).1.length, (readFull r L).2.1, (readFull r L).2.2) := by
  unfold TypeValue.readValue
  rw [if_pos hL, if_neg hc]

theorem ReadFrom_WriteTo_append (c : Int) (recv : TypeValue) (t : Nat) (p rest : List Byte)
    (ht : t < 2 ^ 64) (hp : p.length ≤ MaxInt) (hc : 0 < c → (p.length : Int) ≤ c) :
    TypeValue.ReadFrom c recv (((⟨t, p⟩ : TypeValue).WriteTo []).1 ++ rest) =
      (⟨t, if p = [] then recv.Value else p⟩, ((⟨t, p⟩ : TypeValue).WriteTo []).2.1, none, rest) := by
  have hlt : p.length < 2 ^ 64 := by
    unfold MaxInt at hp
    omega
  have hmod : p.length % 2 ^ 64 = p.length := Nat.mod_eq_of_lt hlt
  rw [WriteTo_eq]
  simp only [hmod, List.nil_append, List.append_assoc]
  have h1 := ReadUint64_WriteUint64_append t ht ((WriteUint64 [] p.length).1 ++ (p ++ rest))
  have h2 := ReadUint64_WriteUint64_append p.length hlt (p ++ rest)
  rw [ReadFrom_fields c recv _ _ _ _ _ _ _ _ _ h1 (Or.inl rfl) h2 (Or.inl rfl)]
  rw [if_neg (by omega)]
  rw [(WriteUint64_append [] t), (WriteUint64_append [] p.length)]
  simp only [scanErrs_three, List.nil_append]
  by_cases hp0 : p = []
  · subst hp0
    simp [readValue_zero]
  · have hpos : 0 < p.length := List.length_pos.mpr hp0
    have hcc : ¬ (c > 0 ∧ (p.length : Int) > c) := by
      rintro ⟨h0, h1⟩
      have := hc h0
      omega
    rw [readValue_within c _ _ _ hpos hcc, readFull_append p rest p.length rfl hpos]
    simp [hp0]


/-- C3. TLV round trip: for every type identifier `t` and payload `p` (of a length
that is a Go `int`) whose length does not exceed a positive `MaxValueSize`,
or any such payload when `MaxValueSize` is not positive, `MarshalBinary`
succeeds and `UnmarshalBinary` of its bytes into a fresh `TypeValue` returns
a nil error and a value `Equal` to the original. -/
theorem TypeValue_round_trip (c : Int) (t : Nat) (p : List Byte) (ht : t < 2 ^ 64)
    (hp : p.length ≤ MaxInt) (hc : 0 < c → (p.length : Int) ≤ c) :
    (TypeValue.MarshalBinary ⟨t, p⟩).2 = none ∧
      (TypeValue.UnmarshalBinary c ⟨0, []⟩ (TypeValue.MarshalBinary ⟨t, p⟩).1).2 = none ∧
      (TypeValue.UnmarshalBinary c ⟨0, []⟩ (TypeValue.MarshalBinary ⟨t, p⟩).1).1.Equal ⟨t, p⟩
        = true := by
  have hm : TypeValue.MarshalBinary ⟨t, p⟩ = (((⟨t, p⟩ : TypeValue).WriteTo []).1, none) := by
    unfold TypeValue.MarshalBinary
    rw [WriteTo_eq]
  have hr := ReadFrom_WriteTo_append c ⟨0, []⟩ t p [] ht hp hc
  rw [List.append_nil] at hr
  rw [hm]
  refine ⟨rfl, ?_, ?_⟩
  · simp only [TypeValue.UnmarshalBinary, hr]
  · simp only [TypeValue.UnmarshalBinary, hr, TypeValue.Equal]
    by_cases hp0 : p = [] <;> simp [hp0]

theorem TypeValue_round_trip_witness :
    (TypeValue.MarshalBinary ⟨1, [116, 101, 115, 116]⟩).2 = none ∧
      (TypeValue.UnmarshalBinary 1024 ⟨0, []⟩
        (TypeValue.MarshalBinary ⟨1, [116, 101, 115, 116]⟩).1).2 = none ∧
      (TypeValue.UnmarshalBinary 1024 ⟨0, []⟩
        (TypeValue.MarshalBinary ⟨1, [116, 101, 115, 116]⟩).1).1.Equal
          ⟨1, [116, 101, 115, 116]⟩ = true :=
  TypeValue_round_trip 1024 1 [116, 101, 115, 116] (by norm_num) (by decide) (by decide)

theorem encodingParams_eq_spec (v : Nat) (hv : v < 2 ^ 64) :
    encodingParams v = (byte (specHeader v), specTrailing v) := by
  unfold encodingParams specHeader specTrailing
  split_ifs <;> first | rfl | (exfalso; omega)

theorem WriteUint64_eq_spec (w : List Byte) (v : Nat) (hv : v < 2 ^ 64) :
    WriteUint64 w v = (w ++ specVarU64 v, (specVarU64 v).length, none) := by
  rw [WriteUint64_eq, encodingParams_eq_spec v hv]
  simp [specVarU64, length_lsBytesBE, Nat.add_comm]

/-- C4. TLV layout: for every `TypeValue` (a 64-bit type, a payload whose length is
a Go `int`), the bytes `WriteTo` appends are the canonical VarU64 encoding of
the type as the specification's table gives it, then the canonical VarU64
encoding of the payload length, then the payload itself (nothing for an empty
payload); the returned count is the total length of the three parts and the
error is nil. -/
theorem TypeValue_WriteTo_layout (tv : TypeValue) (w : List Byte) (ht : tv.Typ < 2 ^ 64)
    (hlen : tv.Value.length ≤ MaxInt) :
    tv.WriteTo w =
      (w ++ specVarU64 tv.Typ ++ specVarU64 tv.Value.length ++ tv.Value,
        (specVarU64 tv.Typ).length + (specVarU64 tv.Value.length).length + tv.Value.length,
        none) := by
  have hlt : tv.Value.length < 2 ^ 64 := by
    unfold MaxInt at hlen
    omega
  have hmod : tv.Value.length % 2 ^ 64 = tv.Value.length := Nat.mod_eq_of_lt hlt
  have h1 := WriteUint64_eq_spec [] tv.Typ ht
  have h2 := WriteUint64_eq_spec [] tv.Value.length hlt
  rw [WriteTo_eq, hmod, h1, h2]
  simp only [List.nil_append]

theorem TypeValue_WriteTo_layout_witness :
    (⟨1, [116, 101, 115, 116]⟩ : TypeValue).WriteTo [] = ([1, 4, 116, 101, 115, 116], 6, none) ∧
      (⟨0, []⟩ : TypeValue).WriteTo [] = ([0, 0], 2, none) ∧
      (⟨65536, [7]⟩ : TypeValue).WriteTo [9] = ([9, 250, 1, 0, 0, 1, 7], 6, none) :=
  ⟨TypeValue_WriteTo_layout ⟨1, [116, 101, 115, 116]⟩ [] (by norm_num) (by decide),
    TypeValue_WriteTo_layout ⟨0, []⟩ [] (by norm_num) (by decide),
    TypeValue_WriteTo_layout ⟨65536, [7]⟩ [9] (by norm_num) (by decide)⟩

/-- C9. Size ceiling enforcement: with `MaxValueSize` a positive ceiling `c`, for
every input whose type and length fields decode (canonically or not) with
declared length `L`, `TypeValue.ReadFrom` fails with `ErrValueTooBig` exactly
when `L > c`; the count is then the size of the two VarU64 fields and the
bytes after them stay unread. -/
theorem ReadFrom_size_ceiling (c : Int) (hc : 0 < c) (hcmax : c ≤ MaxInt) (recv : TypeValue)
    (r r1 r2 : List Byte) (ty n1 L n2 : Nat) (e1 e2 : Option Error)
    (h1 : ReadUint64 r = (ty, n1, e1, r1))
    (hn1 : e1 = none ∨ e1 = some Error.ErrNonCanonical)
    (h2 : ReadUint64 r1 = (L, n2, e2, r2))
    (hn2 : e2 = none ∨ e2 = some Error.ErrNonCanonical) :
    ((TypeValue.ReadFrom c recv r).2.2.1 = some Error.ErrValueTooBig ↔ c < (L : Int)) ∧
      (c < (L : Int) →
        (TypeValue.ReadFrom c recv r).2.1 = n1 + n2 ∧ (TypeValue.ReadFrom c recv r).2.2.2 = r2) := by
  rw [ReadFrom_fields c recv r r1 r2 ty n1 L n2 e1 e2 h1 hn1 h2 hn2]
  by_cases hmax : L > MaxInt
  · have hcl : c < (L : Int) := by omega
    simp [hmax, hcl]
  · rw [if_neg hmax]
    by_cases hcl : c < (L : Int)
    · have hL : 0 < L := by omega
      rw [readValue_too_big c _ r2 L hL hc hcl]
      simp [hcl, scanErrs_three]
    · have hne : (({ recv with Typ := ty } : TypeValue).readValue c r2 L).2.2.1
          ≠ some Error.ErrValueTooBig := by
        by_cases hL : 0 < L
        · rw [readValue_within c _ r2 L hL (by omega)]
          rcases readFull_error_cases r2 L with h | h <;> simp [h]
        · have hL0 : L = 0 := by omega
          subst hL0
          simp [readValue_zero]
      simp only [hcl, iff_false, false_implies, and_true, scanErrs_three]
      revert hne
      rcases hn1 with rfl | rfl <;> rcases hn2 with rfl | rfl <;>
        cases (({ recv with Typ := ty } : TypeValue).readValue c r2 L).2.2.1 <;> simp

theorem ReadFrom_size_ceiling_witness :
    ((TypeValue.ReadFrom 3 ⟨0, []⟩ [248, 7, 4, 1, 1, 1, 1]).2.2.1 = some Error.ErrValueTooBig ↔
        (3 : Int) < ((4 : Nat) : Int)) ∧
      ((3 : Int) < ((4 : Nat) : Int) →
        (TypeValue.ReadFrom 3 ⟨0, []⟩ [248, 7, 4, 1, 1, 1, 1]).2.1 = 2 + 1 ∧
          (TypeValue.ReadFrom 3 ⟨0, []⟩ [248, 7, 4, 1, 1, 1, 1]).2.2.2 = [1, 1, 1, 1]) :=
  ReadFrom_size_ceiling 3 (by decide) (by decide) ⟨0, []⟩ [248, 7, 4, 1, 1, 1, 1] [4, 1, 1, 1, 1]
    [1, 1, 1, 1] 7 2 4 1 (some Error.ErrNonCanonical) none (by decide) (Or.inr rfl) (by decide)
    (Or.inl rfl)

/-- C10, as the code has it: with `MaxValueSize` zero or negative,
`TypeValue.ReadFrom` fails with `ErrValueTooBig` exactly when the type and
length fields decode (canonically or not) and the declared length exceeds
`math.MaxInt`; a declared length up to `math.MaxInt` is never too big. -/
theorem ReadFrom_unlimited_too_big_iff (c : Int) (hc : c ≤ 0) (recv : TypeValue)
    (r : List Byte) :
    (TypeValue.ReadFrom c recv r).2.2.1 = some Error.ErrValueTooBig ↔
      (((ReadUint64 r).2.2.1 = none ∨ (ReadUint64 r).2.2.1 = some Error.ErrNonCanonical) ∧
        ((ReadUint64 (ReadUint64 r).2.2.2).2.2.1 = none ∨
          (ReadUint64 (ReadUint64 r).2.2.2).2.2.1 = some Error.ErrNonCanonical) ∧
        MaxInt < (ReadUint64 (ReadUint64 r).2.2.2).1) := by
  rcases h1 : ReadUint64 r with ⟨ty, n1, e1, r1⟩
  have hc1 := ReadUint64_error_cases r
  rw [h1] at hc1
  simp only at hc1 ⊢
  by_cases hn1 : e1 = none ∨ e1 = some Error.ErrNonCanonical
  · rcases h2 : ReadUint64 r1 with ⟨L, n2, e2, r2⟩
    have hc2 := ReadUint64_error_cases r1
    rw [h2] at hc2
    simp only at hc2 ⊢
    by_cases hn2 : e2 = none ∨ e2 = some Error.ErrNonCanonical
    · rw [ReadFrom_fields c recv r r1 r2 ty n1 L n2 e1 e2 h1 hn1 h2 hn2]
      by_cases hmax : L > MaxInt
      · simp [hmax, hn1, hn2]
      · have hne : (({ recv with Typ := ty } : TypeValue).readValue c r2 L).2.2.1
            ≠ some Error.ErrValueTooBig := by
          by_cases hL : 0 < L
          · rw [readValue_within c _ r2 L hL (by omega)]
            rcases readFull_error_cases r2 L with h | h <;> simp [h]
          · have hL0 : L = 0 := by omega
            subst hL0
            simp [readValue_zero]
        have hmax2 : ¬ MaxInt < L := hmax
        simp only [if_neg hmax, hmax2, and_false, iff_false, scanErrs_three]
        revert hne
        rcases hn1 with rfl | rfl <;> rcases hn2 with rfl | rfl <;>
          cases (({ recv with Typ := ty } : TypeValue).readValue c r2 L).2.2.1 <;> simp
    · have hf : e2 ≠ none ∧ e2 ≠ some Error.ErrNonCanonical := by
        constructor <;> intro h <;> simp [h] at hn2
      rw [ReadFrom_length_fatal c recv r r1 r2 ty n1 L n2 e1 e2 h1 hn1 h2 hf]
      have he2 : e2 = some Error.ErrUnexpectedEOF := by
        rcases hc2 with h | h | h
        · exact absurd h hf.1
        · exact absurd h hf.2
        · exact h
      simp [he2]
  · have hf : e1 ≠ none ∧ e1 ≠ some Error.ErrNonCanonical := by
      constructor <;> intro h <;> simp [h] at hn1
    rw [ReadFrom_type_fatal c recv r r1 ty n1 e1 h1 hf]
    have he1 : e1 = some Error.ErrUnexpectedEOF := by
      rcases hc1 with h | h | h
      · exact absurd h hf.1
      · exact absurd h hf.2
      · exact h
    simp [he1]

theorem ReadFrom_unlimited_too_big_iff_witness :
    (TypeValue.ReadFrom (-1) ⟨0, []⟩ [0, 2, 1]).2.2.1 = some Error.ErrValueTooBig ↔
      (((ReadUint64 [0, 2, 1]).2.2.1 = none ∨
          (ReadUint64 [0, 2, 1]).2.2.1 = some Error.ErrNonCanonical) ∧
        ((ReadUint64 (ReadUint64 [0, 2, 1]).2.2.2).2.2.1 = none ∨
          (ReadUint64 (ReadUint64 [0, 2, 1]).2.2.2).2.2.1 = some Error.ErrNonCanonical) ∧
        MaxInt < (ReadUint64 (ReadUint64 [0, 2, 1]).2.2.2).1) :=
  ReadFrom_unlimited_too_big_iff (-1) (by decide) ⟨0, []⟩ [0, 2, 1]

/-- C10, counterexample: with `MaxValueSize` zero (and likewise negative), a frame
whose length field declares `2 ^ 63` bytes makes `TypeValue.ReadFrom` fail
with `ErrValueTooBig`. -/
theorem ReadFrom_unlimited_too_big_counterexample :
    (TypeValue.ReadFrom 0 ⟨0, []⟩ [0, 255, 128, 0, 0, 0, 0, 0, 0, 0]).2.2.1
        = some Error.ErrValueTooBig ∧
      (TypeValue.ReadFrom (-1) ⟨0, []⟩ [0, 255, 128, 0, 0, 0, 0, 0, 0, 0]).2.2.1
        = some Error.ErrValueTooBig := by
  decide

end yamf

/-! ## Counts on truncated input, the text path, receiver reuse -/

namespace varu64

open yamf

/-- C13, at the failing input `f9 01`: `ReadUint64` takes both bytes from the reader
(nothing is left unread) and fails with `io.ErrUnexpectedEOF`, yet the count
it returns is 1: the header byte, read before the trailing bytes ran out, is
not counted. -/
theorem ReadUint64_count_on_truncated_input :
    ReadUint64 [249, 1] = (0, 1, some Error.ErrUnexpectedEOF, []) ∧
      ([249, 1] : List Byte).length - (ReadUint64 [249, 1]).2.2.2.length = 2 ∧
      (ReadUint64 [249, 1]).2.1 = 1 := by
  refine ⟨?_, ?_, ?_⟩ <;> decide

/-- C14, at the failing input `f8 2a` (a non-canonical encoding of 42) with a receiver
holding 7: `ReadFrom` and `UnmarshalBinary` return `ErrNonCanonical` and
leave the receiver holding 42, whereas `UnmarshalText` on the hexadecimal
text `f82a` returns `ErrNonCanonical` and leaves the receiver holding 7. -/
theorem UnmarshalText_noncanonical_keeps_receiver :
    hexEncode [248, 42] = [102, 56, 50, 97] ∧
      ((U64 7).ReadFrom [248, 42]).1 = U64 42 ∧
      ((U64 7).ReadFrom [248, 42]).2.2.1 = some Error.ErrNonCanonical ∧
      (U64 7).UnmarshalBinary [248, 42] = (U64 42, some Error.ErrNonCanonical) ∧
      (U64 7).UnmarshalText (hexEncode [248, 42])
        = some (U64 7, some Error.ErrNonCanonical) := by
  refine ⟨?_, ?_, ?_, ?_, ?_⟩ <;> decide

end varu64

namespace yamf

open varu64

/-- C18, at the failing input `00 00` (type 0, declared length 0) with a receiver
holding type 1 and the value `test`: `TypeValue.ReadFrom` returns a nil
error and sets the type to 0, but the receiver still holds the four bytes of
`test` instead of an empty value. -/
theorem ReadFrom_keeps_value_on_zero_length :
    TypeValue.ReadFrom 1024 ⟨1, [116, 101, 115, 116]⟩ [0, 0] =
      (⟨0, [116, 101, 115, 116]⟩, 2, none, []) := by
  decide

/-- C17. For every digest object `h` and every `TypeValue` `tv`, `HashEqual h tv`
holds exactly when `HashToTypeValue h` is `Equal` to `tv`, that is when the
identifier of `h` is `tv.Type` and the digest bytes `h.Sum(nil)` are
`tv.Value`; in particular `HashEqual h (HashToTypeValue h)` holds. -/
theorem HashEqual_iff_Equal (h : Hash) (tv : TypeValue) :
    (HashEqual h tv = true ↔ (HashToTypeValue h).Equal tv = true) ∧
      ((HashToTypeValue h).Equal tv = true ↔ (h.HashType = tv.Typ ∧ h.Sum [] = tv.Value)) ∧
      HashEqual h (HashToTypeValue h) = true := by
  refine ⟨?_, ?_, ?_⟩
  · by_cases ht : h.HashType = tv.Typ <;>
      simp [HashEqual, HashToTypeValue, TypeValue.Equal, ht]
  · simp [HashToTypeValue, TypeValue.Equal]
  · simp [HashEqual, HashToTypeValue]

end yamf

/-! ## The registry of hash constructors -/

namespace yamf

theorem createHash_registerHash_same (reg : hashRegistry) (id : Nat) (f : HashCtor) :
    (reg.registerHash id f).createHash id = f () := by
  simp [hashRegistry.registerHash, hashRegistry.createHash]

theorem createHash_registerHash_other (reg : hashRegistry) (id id2 : Nat) (f : HashCtor)
    (h : id ≠ id2) : (reg.registerHash id2 f).createHash id = reg.createHash id := by
  cases hm : reg.hashes <;> simp [hashRegistry.registerHash, hashRegistry.createHash, h, hm]

theorem lastRegistered_append (calls : List (Nat × HashCtor)) (call : Nat × HashCtor) (id : Nat) :
    lastRegistered (calls ++ [call]) id =
      if call.1 = id then some call.2 else lastRegistered calls id := by
  by_cases h : call.1 = id <;> simp [lastRegistered, List.reverse_append, List.find?_cons, h]

theorem registerAll_append (reg : hashRegistry) (calls : List (Nat × HashCtor))
    (call : Nat × HashCtor) :
    registerAll reg (calls ++ [call]) = (registerAll reg calls).registerHash call.1 call.2 := by
  simp [registerAll, RegisterHash, List.foldl_append]

theorem createHash_registerAll (calls : List (Nat × HashCtor)) (id : Nat) :
    (registerAll registry calls).createHash id =
      match lastRegistered calls id with
      | some f => f ()
      | none => (none, some Error.ErrHashNotFound) := by
  induction calls using List.reverseRecOn with
  | nil => rfl
  | append_singleton calls call ih =>
    rw [registerAll_append, lastRegistered_append]
    by_cases h : call.1 = id
    · subst h
      simp [createHash_registerHash_same]
    · rw [createHash_registerHash_other _ _ _ _ (Ne.symm h), ih]
      simp [h]

theorem lastRegistered_eq_none (calls : List (Nat × HashCtor)) (id : Nat) :
    lastRegistered calls id = none ↔ ∀ call ∈ calls, call.1 ≠ id := by
  simp [lastRegistered, List.find?_eq_none]

/-- C16, as the code has it: after any sequence of `RegisterHash` calls,
`CreateHash(id)` returns what the constructor most recently registered for
`id` returns, its error included (a later registration replaces an earlier
one, a registration for another identifier changes nothing for `id`); when
no constructor was ever registered for `id` it fails with `ErrHashNotFound`,
and an `ErrHashNotFound` result means that none was registered or that the
most recently registered constructor returned that error itself. -/
theorem CreateHash_lookup (calls : List (Nat × HashCtor)) (id : Nat) :
    (CreateHash (registerAll registry calls) id =
        match lastRegistered calls id with
        | some f => f ()
        | none => (none, some Error.ErrHashNotFound)) ∧
      (∀ (reg : hashRegistry) (f : HashCtor), CreateHash (RegisterHash reg id f) id = f ()) ∧
      (∀ (reg : hashRegistry) (id2 : Nat) (f : HashCtor), id ≠ id2 →
        CreateHash (RegisterHash reg id2 f) id = CreateHash reg id) ∧
      ((∀ call ∈ calls, call.1 ≠ id) →
        CreateHash (registerAll registry calls) id = (none, some Error.ErrHashNotFound)) ∧
      ((CreateHash (registerAll registry calls) id).2 = some Error.ErrHashNotFound →
        (∀ call ∈ calls, call.1 ≠ id) ∨
          ∃ f, lastRegistered calls id = some f ∧ (f ()).2 = some Error.ErrHashNotFound) := by
  have hmain := createHash_registerAll calls id
  refine ⟨hmain, ?_, ?_, ?_, ?_⟩
  · intro reg f
    exact createHash_registerHash_same reg id f
  · intro reg id2 f h
    exact createHash_registerHash_other reg id id2 f h
  · intro h
    have hn := (lastRegistered_eq_none calls id).2 h
    simp only [CreateHash, hmain, hn]
  · intro h
    simp only [CreateHash, hmain] at h
    cases hl : lastRegistered calls id with
    | none => exact Or.inl ((lastRegistered_eq_none calls id).1 hl)
    | some f =>
      rw [hl] at h
      exact Or.inr ⟨f, rfl, h⟩

theorem CreateHash_lookup_witness :
    CreateHash (registerAll registry
        [(1, fun _ => (none, some Error.EOF)), (2, fun _ => (none, some Error.ErrLength)),
          (1, fun _ => (some ⟨1, fun b => b ++ [7]⟩, none))]) 1
        = (some ⟨1, fun b => b ++ [7]⟩, none) ∧
      CreateHash (registerAll registry
        [(1, fun _ => (none, some Error.EOF)), (2, fun _ => (none, some Error.ErrLength)),
          (1, fun _ => (some ⟨1, fun b => b ++ [7]⟩, none))]) 3
        = (none, some Error.ErrHashNotFound) :=
  ⟨(CreateHash_lookup
      [(1, fun _ => (none, some Error.EOF)), (2, fun _ => (none, some Error.ErrLength)),
        (1, fun _ => (some ⟨1, fun b => b ++ [7]⟩, none))] 1).1,
    (CreateHash_lookup
      [(1, fun _ => (none, some Error.EOF)), (2, fun _ => (none, some Error.ErrLength)),
        (1, fun _ => (some ⟨1, fun b => b ++ [7]⟩, none))] 3).2.2.2.1 (by simp)⟩

/-- C16, counterexample: a constructor is registered for identifier 1 and returns
`ErrHashNotFound` itself (as one that looks up another, unregistered
identifier does); `CreateHash(1)` then fails with `ErrHashNotFound` although
a constructor was registered for 1. -/
theorem CreateHash_not_found_counterexample :
    (CreateHash
        (registerAll registry [(1, fun _ => CreateHash registry 2)]) 1).2
        = some Error.ErrHashNotFound ∧
      ¬ (∀ call ∈ [((1 : Nat), (fun _ => CreateHash registry 2 : HashCtor))], call.1 ≠ 1) := by
  refine ⟨rfl, ?_⟩
  simp

end yamf

/-! ## Type-length-value frames: error selection, truncation, reuse -/

namespace yamf

open varu64

theorem ReadUint64_split (b : Byte) (t : List Byte) (hb : 248 ≤ b.val)
    (ht : b.val - 247 ≤ t.length) :
    ReadUint64 (b :: t) =
      (beValue (t.take (b.val - 247)), b.val - 247 + 1,
        if b.val - 247 ≠ (encodingParams (beValue (t.take (b.val - 247)))).2
          then some Error.ErrNonCanonical else none,
        t.drop (b.val - 247)) := by
  have hlen : (t.take (b.val - 247)).length = b.val - 247 := by
    rw [List.length_take]
    omega
  have hbig := ReadUint64_big b (t.take (b.val - 247)) (t.drop (b.val - 247)) hb hlen
  rw [List.take_append_drop, hlen] at hbig
  exact hbig

theorem ReadUint64_val_lt (r : List Byte) : (ReadUint64 r).1 < 2 ^ 64 := by
  rcases r with _ | ⟨b, t⟩
  · simp [ReadUint64_nil]
  · have hb := b.isLt
    by_cases hs : b.val < 248
    · rw [ReadUint64_small b t hs]
      simp only
      omega
    · by_cases ht : t.length < b.val - 247
      · rw [ReadUint64_trunc b t (by omega) ht]
        simp
      · rw [ReadUint64_split b t (by omega) (by omega)]
        simp only
        have hlt := beValue_lt (t.take (b.val - 247))
        have hlen : (t.take (b.val - 247)).length ≤ 8 := by
          rw [List.length_take]
          omega
        have hpow : (256 : Nat) ^ (t.take (b.val - 247)).length ≤ 256 ^ 8 :=
          Nat.pow_le_pow_right (by norm_num) hlen
        have h64 : (256 : Nat) ^ 8 = 2 ^ 64 := by norm_num
        omega

theorem ReadUint64_of_truncated (r : List Byte) (h : varU64Truncated r = true) :
    (ReadUint64 r).2.2.1 = some Error.ErrUnexpectedEOF := by
  rcases r with _ | ⟨b, t⟩
  · simp [ReadUint64_nil]
  · simp only [varU64Truncated, Bool.and_eq_true, decide_eq_true_eq] at h
    rw [ReadUint64_trunc b t h.1 h.2]

theorem readFull_short (r : List Byte) (m : Nat) (h : r.length < m) :
    (readFull r m).2.1 = some Error.ErrUnexpectedEOF := by
  unfold readFull
  rw [ioReadFull_short r m h]
  by_cases hr : r = [] <;> simp [hr]

theorem readFull_ok (r : List Byte) (m : Nat) (h : (readFull r m).2.1 = none) :
    readFull r m = (r.take m, none, r.drop m) ∧ m ≤ r.length := by
  by_cases hlt : r.length < m
  · rw [readFull_short r m hlt] at h
    simp at h
  · by_cases hm : m = 0
    · subst hm
      simp [readFull, ioReadFull]
    · have hsplit := readFull_append (r.take m) (r.drop m) m
        (by rw [List.length_take]; omega) (by omega)
      rw [List.take_append_drop] at hsplit
      exact ⟨hsplit, by omega⟩

end yamf
namespace yamf

open varu64

/-- C11. TLV error selection: a fatal error on the type field is returned; else a
fatal error on the length field; else `ErrValueTooBig` of the size check or
the error of the value read; else `ErrNonCanonical` if the type field or the
length field was not canonical; else nil. A non-canonical field does not stop
the decoding: in the last two cases type, length and value have all been
decoded and counted. -/
theorem ReadFrom_error_selection (c : Int) (recv : TypeValue) (r r1 : List Byte) (ty n1 : Nat)
    (e1 : Option Error) (h1 : ReadUint64 r = (ty, n1, e1, r1)) :
    ((e1 ≠ none ∧ e1 ≠ some Error.ErrNonCanonical) →
        (TypeValue.ReadFrom c recv r).2.2.1 = e1) ∧
    ((e1 = none ∨ e1 = some Error.ErrNonCanonical) →
      ∀ (L n2 : Nat) (e2 : Option Error) (r2 : List Byte), ReadUint64 r1 = (L, n2, e2, r2) →
        ((e2 ≠ none ∧ e2 ≠ some Error.ErrNonCanonical) →
          (TypeValue.ReadFrom c recv r).2.2.1 = e2) ∧
        ((e2 = none ∨ e2 = some Error.ErrNonCanonical) →
          (MaxInt < L → (TypeValue.ReadFrom c recv r).2.2.1 = some Error.ErrValueTooBig) ∧
          (L ≤ MaxInt →
            ((TypeValue.readValue c { recv with Typ := ty } r2 L).2.2.1 ≠ none →
              (TypeValue.ReadFrom c recv r).2.2.1 =
                (TypeValue.readValue c { recv with Typ := ty } r2 L).2.2.1) ∧
            ((TypeValue.readValue c { recv with Typ := ty } r2 L).2.2.1 = none →
              TypeValue.ReadFrom c recv r =
                ((TypeValue.readValue c { recv with Typ := ty } r2 L).1,
                  n1 + n2 + (TypeValue.readValue c { recv with Typ := ty } r2 L).2.1,
                  (if e1 = some Error.ErrNonCanonical ∨ e2 = some Error.ErrNonCanonical
                    then some Error.ErrNonCanonical else none),
                  (TypeValue.readValue c { recv with Typ := ty } r2 L).2.2.2))))) := by
  constructor
  · intro hf
    rw [ReadFrom_type_fatal c recv r r1 ty n1 e1 h1 hf]
  · intro hn1 L n2 e2 r2 h2
    constructor
    · intro hf
      rw [ReadFrom_length_fatal c recv r r1 r2 ty n1 L n2 e1 e2 h1 hn1 h2 hf]
    · intro hn2
      rw [ReadFrom_fields c recv r r1 r2 ty n1 L n2 e1 e2 h1 hn1 h2 hn2]
      constructor
      · intro hmax
        rw [if_pos hmax]
      · intro hmax
        rw [if_neg (by omega)]
        constructor
        · intro hne
          simp only [scanErrs_three]
          cases hrv : (TypeValue.readValue c { recv with Typ := ty } r2 L).2.2.1 with
          | none => exact absurd hrv hne
          | some e => rfl
        · intro hrv
          simp only [scanErrs_three, hrv]
          rcases hn1 with rfl | rfl <;> rcases hn2 with rfl | rfl <;> simp

theorem ReadFrom_error_selection_witness :
    (TypeValue.ReadFrom 1024 ⟨0, []⟩ [249, 1]).2.2.1 = some Error.ErrUnexpectedEOF ∧
    (TypeValue.ReadFrom 1024 ⟨0, []⟩ [248, 42, 249, 1]).2.2.1 = some Error.ErrUnexpectedEOF ∧
    (TypeValue.ReadFrom 1024 ⟨0, []⟩ [248, 42, 255, 128, 0, 0, 0, 0, 0, 0, 0]).2.2.1
      = some Error.ErrValueTooBig ∧
    (TypeValue.ReadFrom 3 ⟨0, []⟩ [248, 42, 4, 1, 1, 1, 1]).2.2.1 = some Error.ErrValueTooBig ∧
    (TypeValue.ReadFrom 1024 ⟨0, []⟩ [248, 42, 2, 1]).2.2.1 = some Error.ErrUnexpectedEOF ∧
    TypeValue.ReadFrom 1024 ⟨0, []⟩ [248, 42, 1, 1] =
      (⟨42, [1]⟩, 4, some Error.ErrNonCanonical, []) ∧
    TypeValue.ReadFrom 1024 ⟨0, []⟩ [42, 1, 1] = (⟨42, [1]⟩, 3, none, []) :=
  ⟨(ReadFrom_error_selection 1024 ⟨0, []⟩ [249, 1] [] 0 1 (some Error.ErrUnexpectedEOF)
      (by decide)).1 (by decide),
    ((ReadFrom_error_selection 1024 ⟨0, []⟩ [248, 42, 249, 1] [249, 1] 42 2
      (some Error.ErrNonCanonical) (by decide)).2 (Or.inr rfl) 0 1
      (some Error.ErrUnexpectedEOF) [] (by decide)).1 (by decide),
    (((ReadFrom_error_selection 1024 ⟨0, []⟩ [248, 42, 255, 128, 0, 0, 0, 0, 0, 0, 0]
      [255, 128, 0, 0, 0, 0, 0, 0, 0] 42 2 (some Error.ErrNonCanonical) (by decide)).2
      (Or.inr rfl) 9223372036854775808 9 none [] (by decide)).2 (Or.inl rfl)).1 (by decide),
    ((((ReadFrom_error_selection 3 ⟨0, []⟩ [248, 42, 4, 1, 1, 1, 1] [4, 1, 1, 1, 1] 42 2
      (some Error.ErrNonCanonical) (by decide)).2 (Or.inr rfl) 4 1 none [1, 1, 1, 1]
      (by decide)).2 (Or.inl rfl)).2 (by decide)).1 (by decide),
    ((((ReadFrom_error_selection 1024 ⟨0, []⟩ [248, 42, 2, 1] [2, 1] 42 2
      (some Error.ErrNonCanonical) (by decide)).2 (Or.inr rfl) 2 1 none [1]
      (by decide)).2 (Or.inl rfl)).2 (by decide)).1 (by decide),
    ((((ReadFrom_error_selection 1024 ⟨0, []⟩ [248, 42, 1, 1] [1, 1] 42 2
      (some Error.ErrNonCanonical) (by decide)).2 (Or.inr rfl) 1 1 none [1]
      (by decide)).2 (Or.inl rfl)).2 (by decide)).2 (by decide),
    ((((ReadFrom_error_selection 1024 ⟨0, []⟩ [42, 1, 1] [1, 1] 42 1
      none (by decide)).2 (Or.inl rfl) 1 1 none [1]
      (by decide)).2 (Or.inl rfl)).2 (by decide)).2 (by decide)⟩

theorem ReadFromReturns_type_fatal (maxAlloc : Nat) (c : Int) (r r1 : List Byte) (ty n1 : Nat)
    (e1 : Option Error) (h1 : ReadUint64 r = (ty, n1, e1, r1))
    (hf : e1 ≠ none ∧ e1 ≠ some Error.ErrNonCanonical) :
    TypeValue.ReadFromReturns maxAlloc c r = true := by
  unfold TypeValue.ReadFromReturns
  dsimp only
  rw [Uint64_ReadFrom_fatal _ r r1 ty n1 e1 h1 hf]
  dsimp only
  rw [if_pos hf]

theorem ReadFromReturns_length_fatal (maxAlloc : Nat) (c : Int) (r r1 r2 : List Byte)
    (ty n1 L n2 : Nat) (e1 e2 : Option Error)
    (h1 : ReadUint64 r = (ty, n1, e1, r1))
    (hn1 : e1 = none ∨ e1 = some Error.ErrNonCanonical)
    (h2 : ReadUint64 r1 = (L, n2, e2, r2))
    (hf : e2 ≠ none ∧ e2 ≠ some Error.ErrNonCanonical) :
    TypeValue.ReadFromReturns maxAlloc c r = true := by
  have hf1 : ¬ (e1 ≠ none ∧ e1 ≠ some Error.ErrNonCanonical) := by
    rcases hn1 with rfl | rfl <;> simp
  unfold TypeValue.ReadFromReturns
  dsimp only
  rw [Uint64_ReadFrom_ok _ r r1 ty n1 e1 h1 hn1]
  dsimp only
  rw [if_neg hf1, Uint64_ReadFrom_fatal _ r1 r2 L n2 e2 h2 hf]
  dsimp only
  rw [if_pos hf]

theorem ReadFromReturns_fields (maxAlloc : Nat) (c : Int) (r r1 r2 : List Byte)
    (ty n1 L n2 : Nat) (e1 e2 : Option Error)
    (h1 : ReadUint64 r = (ty, n1, e1, r1))
    (hn1 : e1 = none ∨ e1 = some Error.ErrNonCanonical)
    (h2 : ReadUint64 r1 = (L, n2, e2, r2))
    (hn2 : e2 = none ∨ e2 = some Error.ErrNonCanonical) :
    TypeValue.ReadFromReturns maxAlloc c r =
      if L > MaxInt then true else TypeValue.readValueReturns maxAlloc c L := by
  have hf1 : ¬ (e1 ≠ none ∧ e1 ≠ some Error.ErrNonCanonical) := by
    rcases hn1 with rfl | rfl <;> simp
  have hf2 : ¬ (e2 ≠ none ∧ e2 ≠ some Error.ErrNonCanonical) := by
    rcases hn2 with rfl | rfl <;> simp
  unfold TypeValue.ReadFromReturns
  dsimp only
  rw [Uint64_ReadFrom_ok _ r r1 ty n1 e1 h1 hn1]
  dsimp only
  rw [if_neg hf1, Uint64_ReadFrom_ok _ r1 r2 L n2 e2 h2 hn2]
  dsimp only
  rw [if_neg hf2]
  simp only [Uint64.Value]

/-- C12, as the code has it: `TypeValue.ReadFrom` returns and fails with
`io.ErrUnexpectedEOF` on every input that ends before the type field is
complete (the empty input included), or before the length field is complete,
or before all declared value bytes are there (none of them included),
provided in this last case that the declared length is within the ceiling,
does not exceed `math.MaxInt`, and is a length that `make` can serve. -/
theorem ReadFrom_truncated (maxAlloc : Nat) (c : Int) (recv : TypeValue) (r : List Byte) :
    (varU64Truncated r = true →
        TypeValue.ReadFromReturns maxAlloc c r = true ∧
          (TypeValue.ReadFrom c recv r).2.2.1 = some Error.ErrUnexpectedEOF) ∧
    (∀ (ty n1 : Nat) (e1 : Option Error) (r1 : List Byte), ReadUint64 r = (ty, n1, e1, r1) →
      (e1 = none ∨ e1 = some Error.ErrNonCanonical) →
      (varU64Truncated r1 = true →
        TypeValue.ReadFromReturns maxAlloc c r = true ∧
          (TypeValue.ReadFrom c recv r).2.2.1 = some Error.ErrUnexpectedEOF) ∧
      (∀ (L n2 : Nat) (e2 : Option Error) (r2 : List Byte), ReadUint64 r1 = (L, n2, e2, r2) →
        (e2 = none ∨ e2 = some Error.ErrNonCanonical) →
        (0 < c → (L : Int) ≤ c) → L ≤ MaxInt → L ≤ maxAlloc → r2.length < L →
        TypeValue.ReadFromReturns maxAlloc c r = true ∧
          (TypeValue.ReadFrom c recv r).2.2.1 = some Error.ErrUnexpectedEOF)) := by
  constructor
  · intro ht
    have he := ReadUint64_of_truncated r ht
    rcases h1 : ReadUint64 r with ⟨ty, n1, e1, r1⟩
    rw [h1] at he
    simp only at he
    subst he
    rw [ReadFrom_type_fatal c recv r r1 ty n1 _ h1 (by simp)]
    exact ⟨ReadFromReturns_type_fatal maxAlloc c r r1 ty n1 _ h1 (by simp), rfl⟩
  · intro ty n1 e1 r1 h1 hn1
    constructor
    · intro ht
      have he := ReadUint64_of_truncated r1 ht
      rcases h2 : ReadUint64 r1 with ⟨L, n2, e2, r2⟩
      rw [h2] at he
      simp only at he
      subst he
      rw [ReadFrom_length_fatal c recv r r1 r2 ty n1 L n2 e1 _ h1 hn1 h2 (by simp)]
      exact ⟨ReadFromReturns_length_fatal maxAlloc c r r1 r2 ty n1 L n2 e1 _ h1 hn1 h2
        (by simp), rfl⟩
    · intro L n2 e2 r2 h2 hn2 hc hmax halloc hlen
      have hcc : ¬ (c > 0 ∧ (L : Int) > c) := by
        rintro ⟨h0, h3⟩
        have := hc h0
        omega
      constructor
      · rw [ReadFromReturns_fields maxAlloc c r r1 r2 ty n1 L n2 e1 e2 h1 hn1 h2 hn2,
          if_neg (by omega)]
        unfold TypeValue.readValueReturns
        rw [if_pos (by omega), if_neg hcc]
        exact decide_eq_true halloc
      · rw [ReadFrom_fields c recv r r1 r2 ty n1 L n2 e1 e2 h1 hn1 h2 hn2, if_neg (by omega)]
        rw [readValue_within c _ r2 L (by omega) hcc]
        simp only [scanErrs_three, readFull_short r2 L hlen]

theorem ReadFrom_truncated_witness :
    (TypeValue.ReadFromReturns 65536 1024 [] = true ∧
      (TypeValue.ReadFrom 1024 ⟨0, []⟩ []).2.2.1 = some Error.ErrUnexpectedEOF) ∧
    (TypeValue.ReadFromReturns 65536 1024 [0] = true ∧
      (TypeValue.ReadFrom 1024 ⟨0, []⟩ [0]).2.2.1 = some Error.ErrUnexpectedEOF) ∧
    (TypeValue.ReadFromReturns 65536 1024 [0, 1] = true ∧
      (TypeValue.ReadFrom 1024 ⟨0, []⟩ [0, 1]).2.2.1 = some Error.ErrUnexpectedEOF) ∧
    (TypeValue.ReadFromReturns 65536 1024 [0, 2, 1] = true ∧
      (TypeValue.ReadFrom 1024 ⟨0, []⟩ [0, 2, 1]).2.2.1 = some Error.ErrUnexpectedEOF) ∧
    (TypeValue.ReadFromReturns 65536 0 [0, 249, 8, 0, 1] = true ∧
      (TypeValue.ReadFrom 0 ⟨0, []⟩ [0, 249, 8, 0, 1]).2.2.1 = some Error.ErrUnexpectedEOF) :=
  ⟨(ReadFrom_truncated 65536 1024 ⟨0, []⟩ []).1 (by decide),
    ((ReadFrom_truncated 65536 1024 ⟨0, []⟩ [0]).2 0 1 none [] (by decide) (Or.inl rfl)).1
      (by decide),
    ((ReadFrom_truncated 65536 1024 ⟨0, []⟩ [0, 1]).2 0 1 none [1] (by decide) (Or.inl rfl)).2
      1 1 none [] (by decide) (Or.inl rfl) (by decide) (by decide) (by decide) (by decide),
    ((ReadFrom_truncated 65536 1024 ⟨0, []⟩ [0, 2, 1]).2 0 1 none [2, 1] (by decide)
      (Or.inl rfl)).2 2 1 none [1] (by decide) (Or.inl rfl) (by decide) (by decide) (by decide)
      (by decide),
    ((ReadFrom_truncated 65536 0 ⟨0, []⟩ [0, 249, 8, 0, 1]).2 0 1 none [249, 8, 0, 1]
      (by decide) (Or.inl rfl)).2 2048 3 none [1] (by decide) (Or.inl rfl) (by decide)
      (by decide) (by decide) (by decide)⟩

/-- C12, counterexample: with `MaxValueSize` zero every declared length is within the
ceiling. On the input `00 ff 80 00 00 00 00 00 00 00` both fields decode, the
declared length is `2 ^ 63` and none of the value bytes is there, yet
`TypeValue.ReadFrom` fails with `ErrValueTooBig`, not with
`io.ErrUnexpectedEOF`. On the input `00 ff 40 00 00 00 00 00 00 00` the
declared length `2 ^ 62` is within `math.MaxInt`, and with a runtime whose
`make` serves at most `2 ^ 48` bytes the call does not return at all. -/
theorem ReadFrom_truncated_counterexample :
    ReadUint64 [0, 255, 128, 0, 0, 0, 0, 0, 0, 0]
        = (0, 1, none, [255, 128, 0, 0, 0, 0, 0, 0, 0]) ∧
      ReadUint64 [255, 128, 0, 0, 0, 0, 0, 0, 0] = (2 ^ 63, 9, none, []) ∧
      (TypeValue.ReadFrom 0 ⟨0, []⟩ [0, 255, 128, 0, 0, 0, 0, 0, 0, 0]).2.2.1
        = some Error.ErrValueTooBig ∧
      (TypeValue.ReadFrom 0 ⟨0, []⟩ [0, 255, 128, 0, 0, 0, 0, 0, 0, 0]).2.2.1
        ≠ some Error.ErrUnexpectedEOF ∧
      ReadUint64 [255, 64, 0, 0, 0, 0, 0, 0, 0] = (2 ^ 62, 9, none, []) ∧
      2 ^ 62 ≤ MaxInt ∧
      TypeValue.ReadFromReturns (2 ^ 48) 0 [0, 255, 64, 0, 0, 0, 0, 0, 0, 0] = false := by
  refine ⟨?_, ?_, ?_, ?_, ?_, ?_, ?_⟩ <;> decide

end yamf
namespace yamf

open varu64

/-- What a decoding without fatal error leaves in the receiver: the decoded type,
and the declared number of bytes from the input, the former value being kept
when the declared length is zero. -/
theorem ReadFrom_ok_shape (c : Int) (recv : TypeValue) (r : List Byte)
    (h : (TypeValue.ReadFrom c recv r).2.2.1 = none ∨
      (TypeValue.ReadFrom c recv r).2.2.1 = some Error.ErrNonCanonical) :
    ∃ (ty L : Nat) (p : List Byte),
      (TypeValue.ReadFrom c recv r).1 = ⟨ty, if L = 0 then recv.Value else p⟩ ∧
      p.length = L ∧ ty < 2 ^ 64 ∧ L ≤ MaxInt ∧ (0 < L → 0 < c → (L : Int) ≤ c) := by
  rcases h1 : ReadUint64 r with ⟨ty, n1, e1, r1⟩
  have hty : ty < 2 ^ 64 := by
    have := ReadUint64_val_lt r
    rw [h1] at this
    exact this
  by_cases hn1 : e1 = none ∨ e1 = some Error.ErrNonCanonical
  · rcases h2 : ReadUint64 r1 with ⟨L, n2, e2, r2⟩
    by_cases hn2 : e2 = none ∨ e2 = some Error.ErrNonCanonical
    · rw [ReadFrom_fields c recv r r1 r2 ty n1 L n2 e1 e2 h1 hn1 h2 hn2] at h ⊢
      by_cases hmax : L > MaxInt
      · rw [if_pos hmax] at h
        simp at h
      · rw [if_neg hmax] at h ⊢
        simp only [scanErrs_three] at h
        by_cases hL : 0 < L
        · by_cases hcc : c > 0 ∧ (L : Int) > c
          · rw [readValue_too_big c _ r2 L hL hcc.1 hcc.2] at h
            simp at h
          · rw [readValue_within c _ r2 L hL hcc] at h ⊢
            have hrf : (readFull r2 L).2.1 = none := by
              rcases readFull_error_cases r2 L with h0 | h0
              · exact h0
              · rw [h0] at h
                simp at h
            obtain ⟨hok, hle⟩ := readFull_ok r2 L hrf
            refine ⟨ty, L, r2.take L, ?_, ?_, hty, by omega, ?_⟩
            · have hne : L ≠ 0 := by omega
              simp [hok, hne, List.length_take, Nat.min_eq_left hle]
            · rw [List.length_take]
              omega
            · intro _ hc0
              by_contra hcon
              exact hcc ⟨hc0, by omega⟩
        · have hL0 : L = 0 := by omega
          subst hL0
          refine ⟨ty, 0, [], ?_, rfl, hty, by omega, ?_⟩
          · simp [readValue_zero]
          · intro hpos
            omega
    · have hf : e2 ≠ none ∧ e2 ≠ some Error.ErrNonCanonical := by
        constructor <;> intro h0 <;> simp [h0] at hn2
      rw [ReadFrom_length_fatal c recv r r1 r2 ty n1 L n2 e1 e2 h1 hn1 h2 hf] at h
      exact absurd h (by
        rintro (h0 | h0)
        · exact hf.1 h0
        · exact hf.2 h0)
  · have hf : e1 ≠ none ∧ e1 ≠ some Error.ErrNonCanonical := by
      constructor <;> intro h0 <;> simp [h0] at hn1
    rw [ReadFrom_type_fatal c recv r r1 ty n1 e1 h1 hf] at h
    exact absurd h (by
      rintro (h0 | h0)
      · exact hf.1 h0
      · exact hf.2 h0)

theorem MarshalBinary_eq (tv : TypeValue) :
    tv.MarshalBinary = ((tv.WriteTo []).1, none) ∧ (tv.WriteTo []).2.1 = (tv.WriteTo []).1.length := by
  constructor
  · unfold TypeValue.MarshalBinary
    rw [WriteTo_eq]
  · rw [WriteTo_eq]
    simp only [List.length_append, List.nil_append]

/-- C15. Re-encoding stability: whenever `UnmarshalBinary` of a byte sequence into a
fresh `TypeValue` returns a nil error, `MarshalBinary` of the decoded value
succeeds, and `UnmarshalBinary` of the bytes it gives into that same value
returns a nil error again and leaves a value `Equal` to the decoded one. -/
theorem TypeValue_reencoding_stable (c : Int) (input : List Byte)
    (h : (TypeValue.UnmarshalBinary c ⟨0, []⟩ input).2 = none) :
    ((TypeValue.UnmarshalBinary c ⟨0, []⟩ input).1.MarshalBinary).2 = none ∧
      (TypeValue.UnmarshalBinary c (TypeValue.UnmarshalBinary c ⟨0, []⟩ input).1
        ((TypeValue.UnmarshalBinary c ⟨0, []⟩ input).1.MarshalBinary).1).2 = none ∧
      (TypeValue.UnmarshalBinary c (TypeValue.UnmarshalBinary c ⟨0, []⟩ input).1
        ((TypeValue.UnmarshalBinary c ⟨0, []⟩ input).1.MarshalBinary).1).1.Equal
          (TypeValue.UnmarshalBinary c ⟨0, []⟩ input).1 = true := by
  have hu : ∀ (s : TypeValue) (data : List Byte),
      TypeValue.UnmarshalBinary c s data =
        ((TypeValue.ReadFrom c s data).1, (TypeValue.ReadFrom c s data).2.2.1) := by
    intro s data
    rfl
  rw [hu] at h
  simp only at h
  obtain ⟨ty, L, p, hval, hp, hty, hmax, hc⟩ := ReadFrom_ok_shape c ⟨0, []⟩ input (Or.inl h)
  have hval2 : (TypeValue.ReadFrom c ⟨0, []⟩ input).1 = ⟨ty, p⟩ := by
    rw [hval]
    by_cases hL : L = 0
    · have hp0 : p = [] := List.eq_nil_of_length_eq_zero (by omega)
      simp [hL, hp0]
    · simp [hL]
  simp only [hu, hval2]
  have hm := (MarshalBinary_eq ⟨ty, p⟩).1
  rw [hm]
  simp only
  have hcp : 0 < c → (p.length : Int) ≤ c := by
    intro hc0
    by_cases hL : 0 < L
    · rw [hp]
      exact hc hL hc0
    · omega
  have hr := ReadFrom_WriteTo_append c ⟨ty, p⟩ ty p [] hty (by omega) hcp
  rw [List.append_nil] at hr
  rw [hr]
  refine ⟨?_, ?_, ?_⟩
  · trivial
  · rfl
  · by_cases hp0 : p = [] <;> simp [TypeValue.Equal, hp0]

theorem TypeValue_reencoding_stable_witness :
    ((TypeValue.UnmarshalBinary 1024 ⟨0, []⟩ [4, 3, 1, 2, 3]).1.MarshalBinary).2 = none ∧
      (TypeValue.UnmarshalBinary 1024 (TypeValue.UnmarshalBinary 1024 ⟨0, []⟩ [4, 3, 1, 2, 3]).1
        ((TypeValue.UnmarshalBinary 1024 ⟨0, []⟩ [4, 3, 1, 2, 3]).1.MarshalBinary).1).2 = none ∧
      (TypeValue.UnmarshalBinary 1024 (TypeValue.UnmarshalBinary 1024 ⟨0, []⟩ [4, 3, 1, 2, 3]).1
        ((TypeValue.UnmarshalBinary 1024 ⟨0, []⟩ [4, 3, 1, 2, 3]).1.MarshalBinary).1).1.Equal
          (TypeValue.UnmarshalBinary 1024 ⟨0, []⟩ [4, 3, 1, 2, 3]).1 = true :=
  TypeValue_reencoding_stable 1024 [4, 3, 1, 2, 3] (by decide)

/-- C19. Frame self-delimitation: for every `TypeValue` `tv` (a 64-bit type, a payload
within the ceiling) and every byte sequence `rest`, `TypeValue.ReadFrom` on
`MarshalBinary(tv)` followed by `rest`, into a fresh receiver, returns a nil
error, a value `Equal` to `tv` and the count `len(MarshalBinary(tv))`, and
leaves exactly `rest` unread; so a second frame put after the first is
decoded by a second call. -/
theorem ReadFrom_self_delimiting (c : Int) (tv : TypeValue) (rest : List Byte)
    (ht : tv.Typ < 2 ^ 64) (hp : tv.Value.length ≤ MaxInt)
    (hc : 0 < c → (tv.Value.length : Int) ≤ c) :
    (TypeValue.ReadFrom c ⟨0, []⟩ (tv.MarshalBinary.1 ++ rest)).2.2.1 = none ∧
      (TypeValue.ReadFrom c ⟨0, []⟩ (tv.MarshalBinary.1 ++ rest)).1.Equal tv = true ∧
      (TypeValue.ReadFrom c ⟨0, []⟩ (tv.MarshalBinary.1 ++ rest)).2.1
        = tv.MarshalBinary.1.length ∧
      (TypeValue.ReadFrom c ⟨0, []⟩ (tv.MarshalBinary.1 ++ rest)).2.2.2 = rest ∧
      (∀ tv2 : TypeValue, tv2.Typ < 2 ^ 64 → tv2.Value.length ≤ MaxInt →
        (0 < c → (tv2.Value.length : Int) ≤ c) →
        (TypeValue.ReadFrom c ⟨0, []⟩
          (TypeValue.ReadFrom c ⟨0, []⟩
            (tv.MarshalBinary.1 ++ (tv2.MarshalBinary.1 ++ rest))).2.2.2).2.2.1 = none ∧
        (TypeValue.ReadFrom c ⟨0, []⟩
          (TypeValue.ReadFrom c ⟨0, []⟩
            (tv.MarshalBinary.1 ++ (tv2.MarshalBinary.1 ++ rest))).2.2.2).1.Equal tv2 = true ∧
        (TypeValue.ReadFrom c ⟨0, []⟩
          (TypeValue.ReadFrom c ⟨0, []⟩
            (tv.MarshalBinary.1 ++ (tv2.MarshalBinary.1 ++ rest))).2.2.2).2.2.2 = rest) := by
  have key : ∀ (t : TypeValue) (rs : List Byte), t.Typ < 2 ^ 64 → t.Value.length ≤ MaxInt →
      (0 < c → (t.Value.length : Int) ≤ c) →
      TypeValue.ReadFrom c ⟨0, []⟩ (t.MarshalBinary.1 ++ rs) =
        (⟨t.Typ, t.Value⟩, t.MarshalBinary.1.length, none, rs) := by
    intro t rs h1 h2 h3
    rcases t with ⟨ty, p⟩
    obtain ⟨hm, hlen⟩ := MarshalBinary_eq ⟨ty, p⟩
    have hr := ReadFrom_WriteTo_append c ⟨0, []⟩ ty p rs h1 h2 h3
    rw [hm]
    simp only
    rw [← hlen, hr]
    by_cases hp0 : p = [] <;> simp [hp0]
  have heq : ∀ t : TypeValue, (⟨t.Typ, t.Value⟩ : TypeValue).Equal t = true := by
    intro t
    simp [TypeValue.Equal]
  refine ⟨?_, ?_, ?_, ?_, ?_⟩
  · rw [key tv rest ht hp hc]
  · rw [key tv rest ht hp hc]
    exact heq tv
  · rw [key tv rest ht hp hc]
  · rw [key tv rest ht hp hc]
  · intro tv2 h1 h2 h3
    rw [key tv _ ht hp hc]
    simp only
    rw [key tv2 rest h1 h2 h3]
    exact ⟨rfl, heq tv2, rfl⟩

theorem ReadFrom_self_delimiting_witness :
    (TypeValue.ReadFrom 1024 ⟨0, []⟩
        ((⟨1, [116, 101, 115, 116]⟩ : TypeValue).MarshalBinary.1 ++ [0, 0])).2.2.1 = none ∧
      (TypeValue.ReadFrom 1024 ⟨0, []⟩
        ((⟨1, [116, 101, 115, 116]⟩ : TypeValue).MarshalBinary.1 ++ [0, 0])).1.Equal
          ⟨1, [116, 101, 115, 116]⟩ = true ∧
      (TypeValue.ReadFrom 1024 ⟨0, []⟩
        ((⟨1, [116, 101, 115, 116]⟩ : TypeValue).MarshalBinary.1 ++ [0, 0])).2.1
        = (⟨1, [116, 101, 115, 116]⟩ : TypeValue).MarshalBinary.1.length ∧
      (TypeValue.ReadFrom 1024 ⟨0, []⟩
        ((⟨1, [116, 101, 115, 116]⟩ : TypeValue).MarshalBinary.1 ++ [0, 0])).2.2.2 = [0, 0] :=
  ⟨(ReadFrom_self_delimiting 1024 ⟨1, [116, 101, 115, 116]⟩ [0, 0] (by norm_num) (by decide)
      (by decide)).1,
    (ReadFrom_self_delimiting 1024 ⟨1, [116, 101, 115, 116]⟩ [0, 0] (by norm_num) (by decide)
      (by decide)).2.1,
    (ReadFrom_self_delimiting 1024 ⟨1, [116, 101, 115, 116]⟩ [0, 0] (by norm_num) (by decide)
      (by decide)).2.2.1,
    (ReadFrom_self_delimiting 1024 ⟨1, [116, 101, 115, 116]⟩ [0, 0] (by norm_num) (by decide)
      (by decide)).2.2.2.1⟩

end yamf

/-! ## Order of the canonical encodings -/

namespace varu64

open yamf

theorem lexLess_irrefl (a : List Byte) : lexLess a a = false := by
  induction a with
  | nil => rfl
  | cons x xs ih => simp [lexLess, ih]

theorem lexLess_asymm (a b : List Byte) (h : lexLess a b = true) : lexLess b a = false := by
  induction a generalizing b with
  | nil =>
    cases b with
    | nil => rfl
    | cons y ys => rfl
  | cons x xs ih =>
    cases b with
    | nil => simp [lexLess] at h
    | cons y ys =>
      simp only [lexLess, Bool.or_eq_true, Bool.and_eq_true, decide_eq_true_eq] at h
      simp only [lexLess, Bool.or_eq_false_iff, Bool.and_eq_false_iff, decide_eq_false_iff_not]
      rcases h with h | ⟨hxy, h⟩
      · refine ⟨by omega, Or.inl ?_⟩
        intro hyx
        rw [hyx] at h
        omega
      · subst hxy
        exact ⟨by omega, Or.inr (ih ys h)⟩

theorem lexLess_of_beValue_lt (q1 q2 : List Byte) (hlen : q1.length = q2.length)
    (h : beValue q1 < beValue q2) : lexLess q1 q2 = true := by
  induction q1 generalizing q2 with
  | nil =>
    cases q2 with
    | nil => simp [beValue] at h
    | cons y ys => simp at hlen
  | cons x xs ih =>
    cases q2 with
    | nil => simp at hlen
    | cons y ys =>
      simp only [List.length_cons, Nat.add_right_cancel_iff] at hlen
      rw [beValue_cons, beValue_cons, hlen] at h
      have h1 := beValue_lt xs
      have h2 := beValue_lt ys
      rw [hlen] at h1
      simp only [lexLess, Bool.or_eq_true, Bool.and_eq_true, decide_eq_true_eq]
      by_cases hxy : x.val < y.val
      · exact Or.inl hxy
      · right
        have hp : 0 < 256 ^ ys.length := by positivity
        have hle : y.val ≤ x.val := by omega
        have hxy2 : x.val = y.val := by
          by_contra hne
          have hlt : y.val + 1 ≤ x.val := by omega
          have : (y.val + 1) * 256 ^ ys.length ≤ x.val * 256 ^ ys.length :=
            Nat.mul_le_mul_right _ hlt
          have hexp : (y.val + 1) * 256 ^ ys.length = y.val * 256 ^ ys.length + 256 ^ ys.length := by
            ring
          omega
        refine ⟨Fin.ext hxy2, ih ys hlen ?_⟩
        rw [hxy2] at h
        omega

theorem WriteUint64_lexLess (v w : Nat) (hv : v < 2 ^ 64) (hw : w < 2 ^ 64) (h : v < w) :
    lexLess (WriteUint64 [] v).1 (WriteUint64 [] w).1 = true := by
  rw [WriteUint64_eq, WriteUint64_eq]
  simp only [List.nil_append, lexLess, Bool.or_eq_true, Bool.and_eq_true, decide_eq_true_eq]
  by_cases hvs : v < 248
  · left
    have hhv : (encodingParams v).1.val = v := by
      rw [encodingParams_small v hvs, byte_val]
      omega
    by_cases hws : w < 248
    · have hhw : (encodingParams w).1.val = w := by
        rw [encodingParams_small w hws, byte_val]
        omega
      omega
    · obtain ⟨hk1, _, hh, _, _⟩ := encodingParams_big w (by omega) hw
      omega
  · obtain ⟨hk1, hk8, hh, hlt, hge⟩ := encodingParams_big v (by omega) hv
    obtain ⟨hk1w, hk8w, hhw, hltw, hgew⟩ := encodingParams_big w (by omega) hw
    have hmono : (encodingParams v).2 ≤ (encodingParams w).2 :=
      encodingParams_le v (encodingParams w).2 hk1w (by omega)
    by_cases hk : (encodingParams v).2 < (encodingParams w).2
    · left
      omega
    · right
      have hkeq : (encodingParams v).2 = (encodingParams w).2 := by omega
      refine ⟨Fin.ext (by omega), ?_⟩
      apply lexLess_of_beValue_lt
      · rw [length_lsBytesBE, length_lsBytesBE, hkeq]
      · rw [beValue_lsBytesBE, beValue_lsBytesBE, Nat.mod_eq_of_lt hlt, Nat.mod_eq_of_lt hltw]
        exact h

theorem ReadUint64_take_WriteUint64 (v : Nat) (hv : v < 2 ^ 64) (n : Nat)
    (hn : n < (WriteUint64 [] v).1.length) :
    (ReadUint64 ((WriteUint64 [] v).1.take n)).2.2.1 = some Error.ErrUnexpectedEOF := by
  rw [WriteUint64_eq] at hn ⊢
  simp only [List.nil_append, List.length_cons, length_lsBytesBE] at hn ⊢
  cases n with
  | zero => simp [ReadUint64_nil]
  | succ m =>
    have hm : m < (encodingParams v).2 := by omega
    have hbigv : 248 ≤ v := by
      by_contra hs
      rw [encodingParams_small v (by omega)] at hm
      simp at hm
    obtain ⟨_, _, hh, _, _⟩ := encodingParams_big v hbigv hv
    have hlen : (List.take m (lsBytesBE v (encodingParams v).2)).length = m := by
      rw [List.length_take, length_lsBytesBE]
      omega
    rw [List.take_succ_cons, ReadUint64_trunc _ _ (by omega) (by omega)]

/-- C20. Order preservation of the canonical encoding: for 64-bit unsigned `v` and
`w`, `v < w` holds exactly when the output of `WriteUint64` for `v` is
bytewise lexicographically smaller than the output for `w`; hence the
encoding is injective, and no output is a proper initial segment of
another. -/
theorem WriteUint64_order_preserving (v w : Nat) (hv : v < 2 ^ 64) (hw : w < 2 ^ 64) :
    (v < w ↔ lexLess (WriteUint64 [] v).1 (WriteUint64 [] w).1 = true) ∧
      ((WriteUint64 [] v).1 = (WriteUint64 [] w).1 → v = w) ∧
      (∀ n, n < (WriteUint64 [] w).1.length →
        (WriteUint64 [] w).1.take n ≠ (WriteUint64 [] v).1) := by
  have hinj : (WriteUint64 [] v).1 = (WriteUint64 [] w).1 → v = w := by
    intro heq
    rcases Nat.lt_trichotomy v w with h | h | h
    · have := WriteUint64_lexLess v w hv hw h
      rw [heq, lexLess_irrefl] at this
      simp at this
    · exact h
    · have := WriteUint64_lexLess w v hw hv h
      rw [heq, lexLess_irrefl] at this
      simp at this
  refine ⟨⟨WriteUint64_lexLess v w hv hw, ?_⟩, hinj, ?_⟩
  · intro hl
    rcases Nat.lt_trichotomy v w with h | h | h
    · exact h
    · subst h
      rw [lexLess_irrefl] at hl
      simp at hl
    · have := lexLess_asymm _ _ (WriteUint64_lexLess w v hw hv h)
      rw [this] at hl
      simp at hl
  · intro n hn heq
    have h1 := ReadUint64_take_WriteUint64 w hw n hn
    have h2 := ReadUint64_WriteUint64_append v hv []
    rw [List.append_nil] at h2
    rw [heq, h2] at h1
    simp at h1

theorem WriteUint64_order_preserving_witness :
    ((255 : Nat) < 256 ↔ lexLess (WriteUint64 [] 255).1 (WriteUint64 [] 256).1 = true) ∧
      ((WriteUint64 [] 255).1 = (WriteUint64 [] 256).1 → (255 : Nat) = 256) ∧
      (∀ n, n < (WriteUint64 [] 256).1.length →
        (WriteUint64 [] 256).1.take n ≠ (WriteUint64 [] 255).1) :=
  WriteUint64_order_preserving 255 256 (by norm_num) (by norm_num)

end varu64

/-! ## The hexadecimal reader: every read of the text path ends -/

namespace yamf

theorem hexDecode_nil_of_two (l : List Byte) (h2 : 2 ≤ l.length)
    (h : (hexDecode l).1 = []) : (hexDecode l).2 ≠ none := by
  rcases l with _ | ⟨p, _ | ⟨q, rest⟩⟩
  · simp at h2
  · simp at h2
  · unfold hexDecode at h ⊢
    cases hp : fromHexChar p <;> cases hq : fromHexChar q <;> simp_all

theorem hexDecoder_fill_rest (d : hexDecoder) (h : d.r = []) : d.fill.r = [] := by
  unfold hexDecoder.fill
  split
  · simp only [bufferRead, h, List.isEmpty_nil, if_true]
    split <;> rfl
  · exact h

theorem hexDecoder_fill_quiet (d : hexDecoder) (h2 : d.fill.inBuf.length < 2)
    (he : d.fill.err = none) : d.r ≠ [] ∧ d.fill.r = [] := by
  unfold hexDecoder.fill at h2 he ⊢
  by_cases hc : d.inBuf.length < 2 ∧ d.err = none
  · rw [if_pos hc] at h2 he ⊢
    by_cases hr : d.r = []
    · exfalso
      have hn : bufferSize - d.inBuf.length ≠ 0 := by
        unfold bufferSize
        omega
      simp only [bufferRead, hr, List.isEmpty_nil, if_true, hn, if_false, List.append_nil,
        true_and] at he
      split at he
      · split at he
        · split at he <;> simp at he
        · simp at he
      · simp at he
    · refine ⟨hr, ?_⟩
      have hb : bufferRead d.r (bufferSize - d.inBuf.length) =
          (d.r.take (bufferSize - d.inBuf.length), none, d.r.drop (bufferSize - d.inBuf.length)) := by
        simp [bufferRead, hr]
      rw [hb] at h2 ⊢
      simp only [List.length_append, List.length_take] at h2
      simp only
      apply List.eq_nil_of_length_eq_zero
      rw [List.length_drop]
      have hpos : 0 < d.r.length := List.length_pos.mpr hr
      unfold bufferSize at h2 ⊢
      omega
  · rw [if_neg hc] at h2 he
    exact absurd ⟨h2, he⟩ hc

theorem hexDecoder_decode_rest (d : hexDecoder) (m : Nat) : (d.decode m).2.2.r = d.r := by
  unfold hexDecoder.decode
  simp only
  generalize (if m > d.inBuf.length / 2 then d.inBuf.length / 2 else m) = k
  rcases hexDecode (List.take (k * 2) d.inBuf) with ⟨out, err⟩
  cases err <;> simp only <;> split <;> rfl

theorem hexDecoder_decode_quiet (d : hexDecoder) (m : Nat) (hm : 1 ≤ m)
    (ho : (d.decode m).1 = []) (he : (d.decode m).2.1 = none) :
    d.inBuf.length < 2 ∧ d.err = none := by
  by_cases h2 : d.inBuf.length < 2
  · refine ⟨h2, ?_⟩
    have hav : d.inBuf.length / 2 = 0 := by omega
    have hm0 : (if m > d.inBuf.length / 2 then d.inBuf.length / 2 else m) = 0 := by
      rw [hav]
      split <;> omega
    unfold hexDecoder.decode at he
    simp only [hm0, Nat.zero_mul, List.take_zero, hexDecode, List.length_nil, Nat.mul_zero,
      List.drop_zero, h2, if_true] at he
    exact he
  · exfalso
    have hav : 1 ≤ d.inBuf.length / 2 := by omega
    have hm1 : 1 ≤ (if m > d.inBuf.length / 2 then d.inBuf.length / 2 else m) := by
      split <;> omega
    have hmle : (if m > d.inBuf.length / 2 then d.inBuf.length / 2 else m) * 2
        ≤ d.inBuf.length := by
      split <;> omega
    have hlen : 2 ≤ (d.inBuf.take
        ((if m > d.inBuf.length / 2 then d.inBuf.length / 2 else m) * 2)).length := by
      rw [List.length_take]
      omega
    unfold hexDecoder.decode at ho he
    simp only at ho he
    rcases hd : hexDecode (d.inBuf.take
        ((if m > d.inBuf.length / 2 then d.inBuf.length / 2 else m) * 2)) with ⟨out, err⟩
    have hnil := hexDecode_nil_of_two _ hlen
    rw [hd] at ho he hnil
    simp only at ho he hnil
    have hout : out = [] := by
      split at ho <;> exact ho
    cases err with
    | none => exact hnil hout rfl
    | some e => simp at he

theorem hexDecoder_Read_progress (d : hexDecoder) (m : Nat) (hm : 1 ≤ m) :
    (d.r = [] → (d.Read m).2.2.r = []) ∧
      ((d.Read m).1 = [] → (d.Read m).2.1 = none → d.r ≠ [] ∧ (d.Read m).2.2.r = []) := by
  unfold hexDecoder.Read
  constructor
  · intro h
    rw [hexDecoder_decode_rest]
    exact hexDecoder_fill_rest d h
  · intro ho he
    obtain ⟨h2, herr⟩ := hexDecoder_decode_quiet d.fill m hm ho he
    rw [hexDecoder_decode_rest]
    exact hexDecoder_fill_quiet d h2 herr

end yamf

namespace yamf

theorem hexReadAtLeastLoop_isSome (size min : Nat) (hs : min ≤ size) :
    ∀ (fuel : Nat) (d : hexDecoder) (acc : List Byte) (err : Option Error), 1 ≤ fuel →
      (err = none → (min - acc.length) + (if d.r = [] then 0 else 1) + 2 ≤ fuel) →
      (hexReadAtLeastLoop size min fuel d acc err).isSome = true := by
  intro fuel
  induction fuel with
  | zero =>
    intro d acc err h1
    omega
  | succ fuel ih =>
    intro d acc err _ hf
    unfold hexReadAtLeastLoop
    by_cases hc : acc.length < min ∧ err = none
    · rw [if_pos hc]
      have hk : 1 ≤ size - acc.length := by omega
      have hq := hf hc.2
      obtain ⟨hrest, hquiet⟩ := hexDecoder_Read_progress d (size - acc.length) hk
      rcases hR : d.Read (size - acc.length) with ⟨p, e2, d2⟩
      rw [hR] at hrest hquiet
      simp only at hrest hquiet ⊢
      apply ih
      · omega
      · intro he2
        rw [List.length_append]
        by_cases hp : p = []
        · obtain ⟨hr, hr2⟩ := hquiet hp he2
          rw [if_neg hr] at hq
          rw [if_pos hr2, hp]
          simp only [List.length_nil]
          omega
        · have hpl : 0 < p.length := List.length_pos.mpr hp
          by_cases hr : d.r = []
          · rw [if_pos (hrest hr)]
            omega
          · rw [if_neg hr] at hq
            split <;> omega
    · rw [if_neg hc]
      rfl

theorem hexReadFull_isSome (d : hexDecoder) (m : Nat) : (hexReadFull d m).isSome = true := by
  have h := hexReadAtLeastLoop_isSome m m (Nat.le_refl m) (m + 3) d [] none (by omega) (by
    intro _
    simp only [List.length_nil]
    split <;> omega)
  unfold hexReadFull
  rcases hl : hexReadAtLeastLoop m m (m + 3) d [] none with _ | ⟨acc, err, d2⟩
  · rw [hl] at h
    simp at h
  · simp only
    split
    · rfl
    · split <;> rfl

end yamf

namespace varu64

open yamf

theorem ReadUint64Hex_isSome (r : hexDecoder) : (ReadUint64Hex r).isSome = true := by
  unfold ReadUint64Hex
  simp only
  rcases r.Read 1 with ⟨p, e, r2⟩
  cases e with
  | some err => rfl
  | none =>
    simp only
    split
    · rfl
    · split
      · rename_i hf
        have h := hexReadFull_isSome r2
          ((((p ++ List.drop p.length (List.replicate 9 0)).getD 0 0).val &&& 7) + 1)
        rw [hf] at h
        simp at h
      · rfl
      · split <;> rfl

/-- The text path always returns: the bound on the rounds of `io.ReadFull` is never
reached. -/
theorem UnmarshalText_isSome (v : Uint64) (text : List Byte) :
    (v.UnmarshalText text).isSome = true := by
  have h := ReadUint64Hex_isSome (NewDecoder text)
  unfold Uint64.UnmarshalText
  rcases hr : ReadUint64Hex (NewDecoder text) with _ | ⟨val, n, e, r⟩
  · rw [hr] at h
    simp at h
  · cases e <;> rfl

end varu64
